import Mathlib

/-!
Shallow embedding of the `pricing` crate's market-depth models
(`src/market_data/{bid_offer,l1,l2,l3}.rs`).

Rust's `BTreeMap<K, V>` is embedded as a strictly key-sorted association
list `List (K × V)`; `insert` / `get` / `remove` become `insertSorted`,
`lookupKey`, `eraseKey`, and in-order iteration is plain list traversal
(`.reverse` for the descending bid-side walk).  The generic numeric
parameters `P` (price) and `A` (amount) are instantiated at `Int`,
matching the integer instantiation used throughout the crate's own tests.
Rust integer division truncates toward zero and panics on a zero divisor,
so it is embedded as `divT : Int → Int → Option Int` with `none` marking
the panic.  Mutation through `&mut self` becomes explicit state passing,
and `Result<(), ()>` becomes `Except Unit Unit`.
-/

namespace Pricing

/-- Lookup in an association list: the value at the first matching key
(models `BTreeMap::get`). -/
def lookupKey {α β : Type} [DecidableEq α] (k : α) : List (α × β) → Option β
  | [] => none
  | (k', v) :: rest => if k = k' then some v else lookupKey k rest

/-- Insert-or-replace keeping keys sorted (models `BTreeMap::insert`). -/
def insertSorted {α β : Type} [LinearOrder α] (k : α) (v : β) :
    List (α × β) → List (α × β)
  | [] => [(k, v)]
  | (k', v') :: rest =>
    if k < k' then (k, v) :: (k', v') :: rest
    else if k = k' then (k, v) :: rest
    else (k', v') :: insertSorted k v rest

/-- Remove the entry at a key, first occurrence (models `BTreeMap::remove`). -/
def eraseKey {α β : Type} [DecidableEq α] (k : α) : List (α × β) → List (α × β)
  | [] => []
  | (k', v) :: rest => if k = k' then rest else (k', v) :: eraseKey k rest

/-- The keys of the association list are strictly increasing, as in a
`BTreeMap` snapshot. -/
def KeysSorted {α β : Type} [LinearOrder α] (l : List (α × β)) : Prop :=
  List.Pairwise (fun x y => x.1 < y.1) l

/-- Sum a projection of the values of an association list. -/
def sumVals {α β : Type} (f : β → Int) (l : List (α × β)) : Int :=
  (l.map (fun x => f x.2)).sum

section AssocLemmas

variable {α β : Type} [LinearOrder α] {k j : α} {v w : β} {l : List (α × β)}

theorem lookupKey_insertSorted_self :
    ∀ l : List (α × β), lookupKey k (insertSorted k v l) = some v
  | [] => by simp [insertSorted, lookupKey]
  | (k', v') :: rest => by
    by_cases h1 : k < k'
    · simp [insertSorted, h1, lookupKey]
    · by_cases h2 : k = k'
      · simp [insertSorted, h1, h2, lookupKey]
      · simp only [insertSorted, if_neg h1, if_neg h2, lookupKey, if_neg h2]
        exact lookupKey_insertSorted_self rest

theorem lookupKey_insertSorted_ne (hjk : j ≠ k) :
    ∀ l : List (α × β), lookupKey j (insertSorted k v l) = lookupKey j l
  | [] => by simp [insertSorted, lookupKey, hjk]
  | (k', v') :: rest => by
    by_cases h1 : k < k'
    · simp [insertSorted, h1, lookupKey, hjk]
    · by_cases h2 : k = k'
      · subst h2
        simp [insertSorted, h1, lookupKey, hjk]
      · simp only [insertSorted, if_neg h1, if_neg h2, lookupKey]
        by_cases h3 : j = k'
        · simp [h3]
        · simp only [if_neg h3]
          exact lookupKey_insertSorted_ne hjk rest

theorem lookupKey_eraseKey_ne (hjk : j ≠ k) :
    ∀ l : List (α × β), lookupKey j (eraseKey k l) = lookupKey j l
  | [] => by simp [eraseKey]
  | (k', v') :: rest => by
    by_cases h1 : k = k'
    · subst h1
      simp [eraseKey, lookupKey, hjk]
    · simp only [eraseKey, if_neg h1, lookupKey]
      by_cases h3 : j = k'
      · simp [h3]
      · simp only [if_neg h3]
        exact lookupKey_eraseKey_ne hjk rest

theorem lookupKey_mem :
    ∀ {l : List (α × β)}, lookupKey k l = some v → (k, v) ∈ l
  | [], h => by simp [lookupKey] at h
  | (k', v') :: rest, h => by
    by_cases h1 : k = k'
    · subst h1
      simp [lookupKey] at h
      simp [h]
    · simp only [lookupKey, if_neg h1] at h
      exact List.mem_cons_of_mem _ (lookupKey_mem h)

theorem mem_insertSorted {x : α × β} :
    ∀ {l : List (α × β)}, x ∈ insertSorted k v l → x = (k, v) ∨ x ∈ l
  | [], h => by simpa [insertSorted] using h
  | (k', v') :: rest, h => by
    by_cases h1 : k < k'
    · simp only [insertSorted, if_pos h1, List.mem_cons] at h
      rcases h with h | h | h
      · exact Or.inl h
      · exact Or.inr (by simp [h])
      · exact Or.inr (List.mem_cons_of_mem _ h)
    · by_cases h2 : k = k'
      · simp only [insertSorted, if_neg h1, if_pos h2, List.mem_cons] at h
        rcases h with h | h
        · exact Or.inl h
        · exact Or.inr (List.mem_cons_of_mem _ h)
      · simp only [insertSorted, if_neg h1, if_neg h2, List.mem_cons] at h
        rcases h with h | h
        · exact Or.inr (by simp [h])
        · rcases mem_insertSorted h with h | h
          · exact Or.inl h
          · exact Or.inr (List.mem_cons_of_mem _ h)

theorem mem_eraseKey {x : α × β} :
    ∀ {l : List (α × β)}, x ∈ eraseKey k l → x ∈ l
  | [], h => by simp [eraseKey] at h
  | (k', v') :: rest, h => by
    by_cases h1 : k = k'
    · simp only [eraseKey, if_pos h1] at h
      exact List.mem_cons_of_mem _ h
    · simp only [eraseKey, if_neg h1, List.mem_cons] at h
      rcases h with h | h
      · simp [h]
      · exact List.mem_cons_of_mem _ (mem_eraseKey h)

theorem insertSorted_ne_nil : insertSorted k v l ≠ [] := by
  cases l with
  | nil => simp [insertSorted]
  | cons hd tl =>
    by_cases h1 : k < hd.1
    · simp [insertSorted, h1]
    · by_cases h2 : k = hd.1
      · simp [insertSorted, h1, h2]
      · simp [insertSorted, h1, h2]

theorem keysSorted_insertSorted (h : KeysSorted l) :
    KeysSorted (insertSorted k v l) := by
  induction l with
  | nil => simp [insertSorted, KeysSorted]
  | cons hd tl ih =>
    rcases hd with ⟨k', v'⟩
    rw [KeysSorted, List.pairwise_cons] at h
    by_cases h1 : k < k'
    · rw [KeysSorted] at *
      simp only [insertSorted, if_pos h1]
      refine List.Pairwise.cons ?_ (List.Pairwise.cons h.1 h.2)
      intro y hy
      rcases List.mem_cons.mp hy with hy | hy
      · simp [hy, h1]
      · exact lt_trans h1 (h.1 y hy)
    · by_cases h2 : k = k'
      · subst h2
        rw [KeysSorted]
        simp only [insertSorted, if_neg h1, if_pos rfl]
        exact List.Pairwise.cons h.1 h.2
      · have hk : k' < k := lt_of_le_of_ne (not_lt.mp h1) (fun he => h2 he.symm)
        rw [KeysSorted]
        simp only [insertSorted, if_neg h1, if_neg h2]
        refine List.Pairwise.cons ?_ (ih h.2)
        intro y hy
        rcases mem_insertSorted hy with hy | hy
        · simp [hy, hk]
        · exact h.1 y hy

theorem keysSorted_eraseKey (h : KeysSorted l) :
    KeysSorted (eraseKey k l) := by
  induction l with
  | nil => simpa [eraseKey] using h
  | cons hd tl ih =>
    rcases hd with ⟨k', v'⟩
    rw [KeysSorted, List.pairwise_cons] at h
    by_cases h1 : k = k'
    · simpa only [eraseKey, if_pos h1] using h.2
    · rw [KeysSorted]
      simp only [eraseKey, if_neg h1]
      refine List.Pairwise.cons ?_ (ih h.2)
      intro y hy
      exact h.1 y (mem_eraseKey hy)

theorem lookupKey_eq_some_of_mem (h : KeysSorted l) (hm : (k, v) ∈ l) :
    lookupKey k l = some v := by
  induction l with
  | nil => simp at hm
  | cons hd tl ih =>
    rcases hd with ⟨k', v'⟩
    rw [KeysSorted, List.pairwise_cons] at h
    rcases List.mem_cons.mp hm with hhd | htl
    · rw [Prod.mk.injEq] at hhd
      simp [lookupKey, hhd.1, hhd.2]
    · have hne : k ≠ k' := by
        intro he
        subst he
        have hlt := h.1 (k, v) htl
        simp at hlt
      simp only [lookupKey, if_neg hne]
      exact ih h.2 htl

theorem lookupKey_eraseKey_self (h : KeysSorted l) :
    lookupKey k (eraseKey k l) = none := by
  induction l with
  | nil => simp [eraseKey, lookupKey]
  | cons hd tl ih =>
    rcases hd with ⟨k', v'⟩
    rw [KeysSorted, List.pairwise_cons] at h
    by_cases h1 : k = k'
    · subst h1
      have he : eraseKey k ((k, v') :: tl) = tl := by simp [eraseKey]
      rw [he]
      cases hl : lookupKey k tl with
      | none => rfl
      | some w =>
        have hlt := h.1 (k, w) (lookupKey_mem hl)
        simp at hlt
    · simp only [eraseKey, if_neg h1, lookupKey, if_neg h1]
      exact ih h.2

theorem key_ne_of_mem_eraseKey (h : KeysSorted l) {x : α × β}
    (hm : x ∈ eraseKey k l) : x.1 ≠ k := by
  rcases x with ⟨x1, x2⟩
  intro he
  simp only at he
  subst he
  have := lookupKey_eq_some_of_mem (keysSorted_eraseKey h) hm
  rw [lookupKey_eraseKey_self h] at this
  exact Option.noConfusion this

theorem lookupKey_eq_none_of_head_gt {k' : α} {v' : β} {rest : List (α × β)}
    (h : KeysSorted ((k', v') :: rest)) (hk : k < k') :
    lookupKey k ((k', v') :: rest) = none := by
  rw [KeysSorted, List.pairwise_cons] at h
  have hne : k ≠ k' := ne_of_lt hk
  simp only [lookupKey, if_neg hne]
  cases hl : lookupKey k rest with
  | none => rfl
  | some w =>
    have hlt := h.1 (k, w) (lookupKey_mem hl)
    simp only at hlt
    exact absurd (lt_trans hk hlt) (lt_irrefl k)

omit [LinearOrder α] in
theorem sumVals_cons {f : β → Int} {a : α} {b : β} {tl : List (α × β)} :
    sumVals f ((a, b) :: tl) = f b + sumVals f tl := by
  simp [sumVals]

theorem sumVals_insertSorted_none {f : β → Int} (hl : lookupKey k l = none) :
    sumVals f (insertSorted k v l) = sumVals f l + f v := by
  induction l with
  | nil => simp [insertSorted, sumVals]
  | cons hd tl ih =>
    rcases hd with ⟨k', v'⟩
    by_cases h1 : k < k'
    · simp only [insertSorted, if_pos h1, sumVals_cons]
      ring
    · by_cases h2 : k = k'
      · rw [lookupKey, if_pos h2] at hl
        exact Option.noConfusion hl
      · rw [lookupKey, if_neg h2] at hl
        simp only [insertSorted, if_neg h1, if_neg h2, sumVals_cons]
        rw [ih hl]
        ring

theorem sumVals_insertSorted_some {f : β → Int} (hs : KeysSorted l)
    (hl : lookupKey k l = some w) :
    sumVals f (insertSorted k v l) = sumVals f l - f w + f v := by
  induction l with
  | nil => simp [lookupKey] at hl
  | cons hd tl ih =>
    rcases hd with ⟨k', v'⟩
    by_cases h1 : k < k'
    · rw [lookupKey_eq_none_of_head_gt hs h1] at hl
      exact Option.noConfusion hl
    · rw [KeysSorted, List.pairwise_cons] at hs
      by_cases h2 : k = k'
      · rw [lookupKey, if_pos h2] at hl
        have hw : v' = w := Option.some.inj hl
        subst hw
        simp only [insertSorted, if_neg h1, if_pos h2, sumVals_cons]
        ring
      · rw [lookupKey, if_neg h2] at hl
        simp only [insertSorted, if_neg h1, if_neg h2, sumVals_cons]
        rw [ih hs.2 hl]
        ring

theorem sumVals_eraseKey {f : β → Int} (hs : KeysSorted l)
    (hl : lookupKey k l = some w) :
    sumVals f (eraseKey k l) = sumVals f l - f w := by
  induction l with
  | nil => simp [lookupKey] at hl
  | cons hd tl ih =>
    rcases hd with ⟨k', v'⟩
    rw [KeysSorted, List.pairwise_cons] at hs
    by_cases h2 : k = k'
    · rw [lookupKey, if_pos h2] at hl
      have hw : v' = w := Option.some.inj hl
      subst hw
      simp only [eraseKey, if_pos h2, sumVals_cons]
      ring
    · rw [lookupKey, if_neg h2] at hl
      simp only [eraseKey, if_neg h2, sumVals_cons]
      rw [ih hs.2 hl]
      ring

end AssocLemmas

/-- The update action for pricing (`update_action.rs`). -/
inductive UpdateAction : Type
  | Add
  | Update
  | Remove
deriving DecidableEq

/-- The side of the market for the price (`market_side.rs`). -/
inductive MarketSide : Type
  | Bid
  | Offer
deriving DecidableEq

/-- Bid/offer pair of nullable prices (`bid_offer.rs`). -/
structure BidOffer (P : Type) where
  bid : Option P
  offer : Option P
deriving DecidableEq

namespace BidOffer

/-- `BidOffer::new`: no pricing on either side. -/
def new {P : Type} : BidOffer P := ⟨none, none⟩

/-- `BidOffer::new_with_price`. -/
def new_with_price {P : Type} (bid offer : Option P) : BidOffer P := ⟨bid, offer⟩

/-- `BidOffer::get_bid`. -/
def get_bid {P : Type} (b : BidOffer P) : Option P := b.bid

/-- `BidOffer::get_offer`. -/
def get_offer {P : Type} (b : BidOffer P) : Option P := b.offer

end BidOffer

/-- Rust integer division: truncates toward zero and panics when the
divisor is zero; `none` marks the panic. -/
def divT (a b : Int) : Option Int :=
  if b = 0 then none else some (Int.tdiv a b)

/-! ## L1 depth model (`l1.rs`)

The subscriber registry `Vec<Rc<dyn L1MarketCallback>>` is embedded as a
list of callback identifiers in registration order; invoking the
callbacks synchronously is embedded as emitting that list as the trace of
the mutator, in invocation order. -/

/-- State of `L1MarketData<P, A>` at `P = A = Int`. -/
structure L1MarketData where
  price : BidOffer Int
  max : BidOffer Int
  callbacks : List Nat
deriving DecidableEq

namespace L1MarketData

/-- `L1MarketData::new`. -/
def new : L1MarketData := ⟨BidOffer.new, BidOffer.new, []⟩

/-- `L1MarketData::new_with_max`. -/
def new_with_max (bid offer max_bid max_offer : Option Int) : L1MarketData :=
  ⟨BidOffer.new_with_price bid offer, BidOffer.new_with_price max_bid max_offer, []⟩

/-- `L1MarketData::new_with_price`. -/
def new_with_price (bid offer : Option Int) : L1MarketData :=
  new_with_max bid offer none none

/-- `L1MarketData::subscribe`: push the callback onto the registry. -/
def subscribe (m : L1MarketData) (callback : Nat) : L1MarketData :=
  { m with callbacks := m.callbacks ++ [callback] }

/-- `L1MarketData::publish_to_subscribers`: the emitted invocation trace is
the registry in registration order. -/
def publish_to_subscribers (m : L1MarketData) : List Nat := m.callbacks

/-- `L1MarketData::update_bid`. -/
def update_bid (m : L1MarketData) (bid : Option Int) : L1MarketData × List Nat :=
  if m.price.get_bid ≠ bid then
    let m2 := { m with price := BidOffer.new_with_price bid m.price.get_offer }
    (m2, publish_to_subscribers m2)
  else (m, [])

/-- `L1MarketData::update_offer`. -/
def update_offer (m : L1MarketData) (offer : Option Int) : L1MarketData × List Nat :=
  if m.price.get_offer ≠ offer then
    let m2 := { m with price := BidOffer.new_with_price m.price.get_bid offer }
    (m2, publish_to_subscribers m2)
  else (m, [])

/-- `L1MarketData::update_max_bid`. -/
def update_max_bid (m : L1MarketData) (max_bid : Option Int) : L1MarketData × List Nat :=
  if m.max.get_bid ≠ max_bid then
    let m2 := { m with max := BidOffer.new_with_price max_bid m.max.get_offer }
    (m2, publish_to_subscribers m2)
  else (m, [])

/-- `L1MarketData::update_max_offer`. -/
def update_max_offer (m : L1MarketData) (max_offer : Option Int) : L1MarketData × List Nat :=
  if m.max.get_offer ≠ max_offer then
    let m2 := { m with max := BidOffer.new_with_price m.max.get_bid max_offer }
    (m2, publish_to_subscribers m2)
  else (m, [])

/-- `L1MarketData::update`. -/
def update (m : L1MarketData) (bid offer : Option Int) : L1MarketData × List Nat :=
  if m.price.get_bid ≠ bid ∨ m.price.get_offer ≠ offer then
    let m2 := { m with price := BidOffer.new_with_price bid offer }
    (m2, publish_to_subscribers m2)
  else (m, [])

/-- `L1MarketData::update_price`. -/
def update_price (m : L1MarketData) (price : BidOffer Int) : L1MarketData × List Nat :=
  if m.price ≠ price then
    let m2 := { m with price := price }
    (m2, publish_to_subscribers m2)
  else (m, [])

/-- `L1MarketData::update_with_max`. -/
def update_with_max (m : L1MarketData) (bid offer max_bid max_offer : Option Int) :
    L1MarketData × List Nat :=
  if m.price.get_bid ≠ bid ∨ m.price.get_offer ≠ offer ∨
      m.max.get_bid ≠ max_bid ∨ m.max.get_offer ≠ max_offer then
    let m2 := { m with price := BidOffer.new_with_price bid offer,
                       max := BidOffer.new_with_price max_bid max_offer }
    (m2, publish_to_subscribers m2)
  else (m, [])

/-- `L1MarketData::update_max`. -/
def update_max (m : L1MarketData) (max : BidOffer Int) : L1MarketData × List Nat :=
  if m.max ≠ max then
    let m2 := { m with max := max }
    (m2, publish_to_subscribers m2)
  else (m, [])

/-- `L1MarketData::update_price_with_max`. -/
def update_price_with_max (m : L1MarketData) (price max : BidOffer Int) :
    L1MarketData × List Nat :=
  if m.price ≠ price ∨ m.max ≠ max then
    let m2 := { m with price := price, max := max }
    (m2, publish_to_subscribers m2)
  else (m, [])

/-- `L1MarketData::clear`. -/
def clear (m : L1MarketData) : L1MarketData × List Nat :=
  if (m.price.get_bid).isSome ∨ (m.price.get_offer).isSome ∨
      (m.max.get_bid).isSome ∨ (m.max.get_offer).isSome then
    let m2 := { m with price := BidOffer.new, max := BidOffer.new }
    (m2, publish_to_subscribers m2)
  else (m, [])

/-- `L1MarketData::get_price`: the current bid/offer gated by the per-side
maximum valid size (`map_or(true, |max_size| max_size >= size)`). -/
def get_price (m : L1MarketData) (size : Int) : BidOffer Int :=
  BidOffer.new_with_price
    (match m.max.get_bid with
     | none => m.price.get_bid
     | some max_size => if max_size ≥ size then m.price.get_bid else none)
    (match m.max.get_offer with
     | none => m.price.get_offer
     | some max_size => if max_size ≥ size then m.price.get_offer else none)

end L1MarketData

/-! ## L2 sweepable depth model (`l2.rs`) -/

/-- State of `L2SweepableMarketData<P, A>` at `P = A = Int`: ordered maps
price → size per side. -/
structure L2SweepableMarketData where
  bids : List (Int × Int)
  offers : List (Int × Int)
deriving DecidableEq

namespace L2SweepableMarketData

/-- `L2SweepableMarketData::new`. -/
def new : L2SweepableMarketData := ⟨[], []⟩

/-- `L2SweepableMarketData::update`: `Add` insert-or-replaces, `Update`
writes through `get_mut` only when the price is present, `Remove` deletes
the price entry. -/
def update (m : L2SweepableMarketData) (action : UpdateAction) (side : MarketSide)
    (price size : Int) : L2SweepableMarketData :=
  match side, action with
  | MarketSide.Bid, UpdateAction.Add =>
    { m with bids := insertSorted price size m.bids }
  | MarketSide.Bid, UpdateAction.Update =>
    match lookupKey price m.bids with
    | some _ => { m with bids := insertSorted price size m.bids }
    | none => m
  | MarketSide.Bid, UpdateAction.Remove =>
    { m with bids := eraseKey price m.bids }
  | MarketSide.Offer, UpdateAction.Add =>
    { m with offers := insertSorted price size m.offers }
  | MarketSide.Offer, UpdateAction.Update =>
    match lookupKey price m.offers with
    | some _ => { m with offers := insertSorted price size m.offers }
    | none => m
  | MarketSide.Offer, UpdateAction.Remove =>
    { m with offers := eraseKey price m.offers }

/-- `L2SweepableMarketData::clear`. -/
def clear (_ : L2SweepableMarketData) : L2SweepableMarketData := ⟨[], []⟩

/-- Loop body of `L2SweepableMarketData::calc_vwap`, with the running
filled size and price-weighted total as explicit accumulators.  The outer
`none` marks the Rust division-by-zero panic in `current_total /
current_size`; `some none` is the insufficient-depth null result. -/
def calcVwapLoop (size : Int) (current_size current_total : Int) :
    List (Int × Int) → Option (Option Int)
  | [] => some none
  | (next_price, next_size) :: rest =>
    let incremental_size :=
      if next_size + current_size > size then size - current_size else next_size
    let current_total2 := current_total + next_price * incremental_size
    let current_size2 := current_size + incremental_size
    if current_size2 ≥ size then
      match divT current_total2 current_size2 with
      | some q => some (some q)
      | none => none
    else calcVwapLoop size current_size2 current_total2 rest

/-- `L2SweepableMarketData::calc_vwap` over a side's levels in traversal
order (accumulators start at `A::default() = 0`). -/
def calc_vwap (size : Int) (levels : List (Int × Int)) : Option (Option Int) :=
  calcVwapLoop size 0 0 levels

/-- `L2SweepableMarketData::get_price`: VWAP sweep, bids walked in reverse
(best = highest first), offers forward.  `none` marks a panic in either
sweep. -/
def get_price (m : L2SweepableMarketData) (size : Int) : Option (BidOffer Int) :=
  match calc_vwap size m.bids.reverse, calc_vwap size m.offers with
  | some b, some o => some (BidOffer.new_with_price b o)
  | _, _ => none

end L2SweepableMarketData

/-! ## L3 order-level depth model (`l3.rs`) -/

/-- `MarketLiquidity<A>`: the size of one resting order. -/
structure MarketLiquidity where
  size : Int
deriving DecidableEq

/-- `MarketLevel<I, A>`: aggregate size plus the per-order map of the
level (field name `prices` as in the source). -/
structure MarketLevel where
  size : Int
  prices : List (Nat × MarketLiquidity)
deriving DecidableEq

/-- `MarketLiquidityMap<P>`: the order index entry, side and price of one
order id. -/
structure MarketLiquidityMap where
  side : MarketSide
  price : Int
deriving DecidableEq

/-- State of `L3MarketData<I, P, A>` at `I = Nat`, `P = A = Int`:
per-side ordered maps price → level plus the order index `prices`. -/
structure L3MarketData where
  bids : List (Int × MarketLevel)
  offers : List (Int × MarketLevel)
  prices : List (Nat × MarketLiquidityMap)
deriving DecidableEq

namespace L3MarketData

/-- `L3MarketData::new`. -/
def new : L3MarketData := ⟨[], [], []⟩

/-- The borrow `match side { Bid => &mut self.bids, Offer => &mut self.offers }`. -/
def sideStore (m : L3MarketData) : MarketSide → List (Int × MarketLevel)
  | MarketSide.Bid => m.bids
  | MarketSide.Offer => m.offers

/-- Write back the side store selected by `sideStore`. -/
def setSideStore (m : L3MarketData) : MarketSide → List (Int × MarketLevel) → L3MarketData
  | MarketSide.Bid, s => { m with bids := s }
  | MarketSide.Offer, s => { m with offers := s }

/-- `L3MarketData::add_price`: get-or-create the level at `price`, insert
the order, add its size into the aggregate. -/
def add_price (store : List (Int × MarketLevel)) (id : Nat) (price size : Int) :
    List (Int × MarketLevel) :=
  let entry := (lookupKey price store).getD ⟨0, []⟩
  insertSorted price ⟨entry.size + size, insertSorted id ⟨size⟩ entry.prices⟩ store

/-- `L3MarketData::remove_price`: remove the order from its level; drop
the level when its order map empties, otherwise subtract the size. -/
def remove_price (store : List (Int × MarketLevel)) (id : Nat) (price : Int) :
    List (Int × MarketLevel) :=
  match lookupKey price store with
  | some level =>
    match lookupKey id level.prices with
    | some liquidity =>
      if eraseKey id level.prices = [] then eraseKey price store
      else insertSorted price ⟨level.size - liquidity.size, eraseKey id level.prices⟩ store
    | none => store
  | none => store

/-- `L3MarketData::update`: state plus the `Result<(), ()>` outcome. -/
def update (m : L3MarketData) (action : UpdateAction) (side : MarketSide)
    (id : Nat) (price size : Int) : L3MarketData × Except Unit Unit :=
  match action with
  | UpdateAction.Add =>
    let m2 := setSideStore m side (add_price (sideStore m side) id price size)
    ({ m2 with prices := insertSorted id ⟨side, price⟩ m2.prices }, Except.ok ())
  | UpdateAction.Update =>
    match lookupKey id m.prices with
    | some liquidity_map =>
      let store := sideStore m liquidity_map.side
      match lookupKey liquidity_map.price store with
      | some level =>
        if liquidity_map.price = price then
          match lookupKey id level.prices with
          | some liquidity =>
            let level2 : MarketLevel :=
              ⟨level.size + (size - liquidity.size), insertSorted id ⟨size⟩ level.prices⟩
            (setSideStore m liquidity_map.side (insertSorted liquidity_map.price level2 store),
              Except.ok ())
          | none => (m, Except.error ())
        else
          let store2 := add_price (remove_price store id liquidity_map.price) id price size
          let m2 := setSideStore m liquidity_map.side store2
          ({ m2 with prices := insertSorted id ⟨liquidity_map.side, price⟩ m2.prices },
            Except.ok ())
      | none => (m, Except.error ())
    | none => (m, Except.error ())
  | UpdateAction.Remove =>
    match lookupKey id m.prices with
    | some liquidity_map =>
      let m2 := { m with prices := eraseKey id m.prices }
      (setSideStore m2 liquidity_map.side
        (remove_price (sideStore m2 liquidity_map.side) id liquidity_map.price),
        Except.ok ())
    | none => (m, Except.error ())

/-- `L3MarketData::clear`. -/
def clear (_ : L3MarketData) : L3MarketData := ⟨[], [], []⟩

/-- Loop body of `L3MarketData::calc_vwap`: as the L2 sweep but consuming
each level's `aggregate_size`. -/
def calcVwapLoop (size : Int) (current_size current_total : Int) :
    List (Int × MarketLevel) → Option (Option Int)
  | [] => some none
  | (next_price, next_size) :: rest =>
    let incremental_size :=
      if next_size.size + current_size > size then size - current_size else next_size.size
    let current_total2 := current_total + next_price * incremental_size
    let current_size2 := current_size + incremental_size
    if current_size2 ≥ size then
      match divT current_total2 current_size2 with
      | some q => some (some q)
      | none => none
    else calcVwapLoop size current_size2 current_total2 rest

/-- `L3MarketData::calc_vwap` over a side's levels in traversal order. -/
def calc_vwap (size : Int) (levels : List (Int × MarketLevel)) : Option (Option Int) :=
  calcVwapLoop size 0 0 levels

/-- `L3MarketData::get_price`: VWAP sweep over aggregate level sizes,
bids in reverse order.  `none` marks a panic in either sweep. -/
def get_price (m : L3MarketData) (size : Int) : Option (BidOffer Int) :=
  match calc_vwap size m.bids.reverse, calc_vwap size m.offers with
  | some b, some o => some (BidOffer.new_with_price b o)
  | _, _ => none

end L3MarketData

namespace L3MarketData

/-! ### Shape lemmas: one equation per control path of `update` -/

theorem prices_setSideStore (m : L3MarketData) (side : MarketSide)
    (s : List (Int × MarketLevel)) : (setSideStore m side s).prices = m.prices := by
  cases side <;> rfl

theorem sideStore_setSideStore (m : L3MarketData) (side side2 : MarketSide)
    (s : List (Int × MarketLevel)) :
    sideStore (setSideStore m side s) side2 =
      if side2 = side then s else sideStore m side2 := by
  cases side <;> cases side2 <;> simp [sideStore, setSideStore]

theorem sideStore_withPrices (m : L3MarketData) (pr : List (Nat × MarketLiquidityMap))
    (side : MarketSide) : sideStore { m with prices := pr } side = sideStore m side := by
  cases side <;> rfl

theorem update_add_eq (m : L3MarketData) (side : MarketSide) (id : Nat)
    (price size : Int) :
    update m UpdateAction.Add side id price size =
      ({ setSideStore m side (add_price (sideStore m side) id price size) with
          prices := insertSorted id ⟨side, price⟩ m.prices }, Except.ok ()) := by
  cases side <;> rfl

theorem update_upd_none (m : L3MarketData) (side : MarketSide) (id : Nat)
    (price size : Int) (h : lookupKey id m.prices = none) :
    update m UpdateAction.Update side id price size = (m, Except.error ()) := by
  unfold update
  rw [h]

theorem update_upd_nolevel (m : L3MarketData) (side : MarketSide) (id : Nat)
    (price size : Int) {lm : MarketLiquidityMap}
    (hlm : lookupKey id m.prices = some lm)
    (hlv : lookupKey lm.price (sideStore m lm.side) = none) :
    update m UpdateAction.Update side id price size = (m, Except.error ()) := by
  unfold update
  rw [hlm]
  simp only [hlv]

theorem update_upd_same (m : L3MarketData) (side : MarketSide) (id : Nat)
    (price size : Int) {lm : MarketLiquidityMap} {level : MarketLevel}
    {liquidity : MarketLiquidity}
    (hlm : lookupKey id m.prices = some lm)
    (hlv : lookupKey lm.price (sideStore m lm.side) = some level)
    (hp : lm.price = price)
    (hliq : lookupKey id level.prices = some liquidity) :
    update m UpdateAction.Update side id price size =
      (setSideStore m lm.side
        (insertSorted lm.price
          ⟨level.size + (size - liquidity.size), insertSorted id ⟨size⟩ level.prices⟩
          (sideStore m lm.side)), Except.ok ()) := by
  unfold update
  rw [hlm]
  simp only [hlv, if_pos hp, hliq]

theorem update_upd_same_noliq (m : L3MarketData) (side : MarketSide) (id : Nat)
    (price size : Int) {lm : MarketLiquidityMap} {level : MarketLevel}
    (hlm : lookupKey id m.prices = some lm)
    (hlv : lookupKey lm.price (sideStore m lm.side) = some level)
    (hp : lm.price = price)
    (hliq : lookupKey id level.prices = none) :
    update m UpdateAction.Update side id price size = (m, Except.error ()) := by
  unfold update
  rw [hlm]
  simp only [hlv, if_pos hp, hliq]

theorem update_upd_move (m : L3MarketData) (side : MarketSide) (id : Nat)
    (price size : Int) {lm : MarketLiquidityMap} {level : MarketLevel}
    (hlm : lookupKey id m.prices = some lm)
    (hlv : lookupKey lm.price (sideStore m lm.side) = some level)
    (hp : ¬ lm.price = price) :
    update m UpdateAction.Update side id price size =
      ({ setSideStore m lm.side
          (add_price (remove_price (sideStore m lm.side) id lm.price) id price size) with
          prices := insertSorted id ⟨lm.side, price⟩ m.prices }, Except.ok ()) := by
  unfold update
  rw [hlm]
  simp only [hlv, if_neg hp]
  rw [prices_setSideStore]

theorem update_rem_none (m : L3MarketData) (side : MarketSide) (id : Nat)
    (price size : Int) (h : lookupKey id m.prices = none) :
    update m UpdateAction.Remove side id price size = (m, Except.error ()) := by
  unfold update
  rw [h]

theorem update_rem_some (m : L3MarketData) (side : MarketSide) (id : Nat)
    (price size : Int) {lm : MarketLiquidityMap}
    (hlm : lookupKey id m.prices = some lm) :
    update m UpdateAction.Remove side id price size =
      (setSideStore { m with prices := eraseKey id m.prices } lm.side
        (remove_price (sideStore m lm.side) id lm.price), Except.ok ()) := by
  unfold update
  rw [hlm]
  dsimp only
  rw [sideStore_withPrices]

/-! ### Characterization of `add_price` and `remove_price` by key -/

theorem lookupKey_add_price (s : List (Int × MarketLevel)) (id : Nat)
    (price size p : Int) :
    lookupKey p (add_price s id price size) =
      if p = price then
        some ⟨((lookupKey price s).getD ⟨0, []⟩).size + size,
          insertSorted id ⟨size⟩ ((lookupKey price s).getD ⟨0, []⟩).prices⟩
      else lookupKey p s := by
  by_cases h : p = price
  · subst h
    simp [add_price, lookupKey_insertSorted_self]
  · simp only [add_price, if_neg h]
    exact lookupKey_insertSorted_ne h s

theorem remove_price_nolevel (s : List (Int × MarketLevel)) (id : Nat) (price : Int)
    (h : lookupKey price s = none) : remove_price s id price = s := by
  unfold remove_price
  rw [h]

theorem remove_price_noliq (s : List (Int × MarketLevel)) (id : Nat) (price : Int)
    {level : MarketLevel} (h : lookupKey price s = some level)
    (hliq : lookupKey id level.prices = none) : remove_price s id price = s := by
  unfold remove_price
  rw [h]
  simp only [hliq]

theorem lookupKey_remove_price_ne (s : List (Int × MarketLevel)) (id : Nat)
    (price p : Int) (hp : p ≠ price) :
    lookupKey p (remove_price s id price) = lookupKey p s := by
  unfold remove_price
  cases h : lookupKey price s with
  | none => rfl
  | some level =>
    dsimp only
    cases hliq : lookupKey id level.prices with
    | none => rfl
    | some liquidity =>
      by_cases he : eraseKey id level.prices = []
      · simp only [if_pos he]
        exact lookupKey_eraseKey_ne hp s
      · simp only [if_neg he]
        exact lookupKey_insertSorted_ne hp s

theorem lookupKey_remove_price_self (s : List (Int × MarketLevel)) (id : Nat)
    (price : Int) (hs : KeysSorted s) {level : MarketLevel}
    {liquidity : MarketLiquidity} (h : lookupKey price s = some level)
    (hliq : lookupKey id level.prices = some liquidity) :
    lookupKey price (remove_price s id price) =
      if eraseKey id level.prices = [] then none
      else some ⟨level.size - liquidity.size, eraseKey id level.prices⟩ := by
  unfold remove_price
  rw [h]
  simp only [hliq]
  by_cases he : eraseKey id level.prices = []
  · simp only [if_pos he]
    exact lookupKey_eraseKey_self hs
  · simp only [if_neg he]
    exact lookupKey_insertSorted_self s

theorem keysSorted_add_price (s : List (Int × MarketLevel)) (id : Nat)
    (price size : Int) (hs : KeysSorted s) :
    KeysSorted (add_price s id price size) :=
  keysSorted_insertSorted hs

theorem keysSorted_remove_price (s : List (Int × MarketLevel)) (id : Nat)
    (price : Int) (hs : KeysSorted s) :
    KeysSorted (remove_price s id price) := by
  unfold remove_price
  cases h : lookupKey price s with
  | none => exact hs
  | some level =>
    dsimp only
    cases hliq : lookupKey id level.prices with
    | none => exact hs
    | some liquidity =>
      by_cases he : eraseKey id level.prices = []
      · simp only [if_pos he]
        exact keysSorted_eraseKey hs
      · simp only [if_neg he]
        exact keysSorted_insertSorted hs

/-! ### Reachability and the structural invariant -/

/-- States reachable from `new` by any sequence of `update` and `clear`
calls. -/
inductive Reachable : L3MarketData → Prop
  | init : Reachable new
  | clears (m : L3MarketData) (h : Reachable m) : Reachable (clear m)
  | steps (m : L3MarketData) (h : Reachable m) (a : UpdateAction) (side : MarketSide)
      (id : Nat) (price size : Int) : Reachable (update m a side id price size).1

/-- States reachable from `new` when every `Add` uses an order id not
currently in the order index (no duplicate `Add`). -/
inductive ReachableND : L3MarketData → Prop
  | init : ReachableND new
  | clears (m : L3MarketData) (h : ReachableND m) : ReachableND (clear m)
  | adds (m : L3MarketData) (h : ReachableND m) (side : MarketSide) (id : Nat)
      (price size : Int) (hid : lookupKey id m.prices = none) :
      ReachableND (update m UpdateAction.Add side id price size).1
  | upds (m : L3MarketData) (h : ReachableND m) (side : MarketSide) (id : Nat)
      (price size : Int) : ReachableND (update m UpdateAction.Update side id price size).1
  | rems (m : L3MarketData) (h : ReachableND m) (side : MarketSide) (id : Nat)
      (price size : Int) : ReachableND (update m UpdateAction.Remove side id price size).1

/-- Structural invariant maintained by every operation: all maps are
sorted, no level is empty, and every order-index entry points at an
existing level that contains the order. -/
structure InvA (m : L3MarketData) : Prop where
  store_sorted : ∀ side, KeysSorted (sideStore m side)
  index_sorted : KeysSorted m.prices
  level_sorted : ∀ side p l, lookupKey p (sideStore m side) = some l → KeysSorted l.prices
  level_nonempty : ∀ side p l, lookupKey p (sideStore m side) = some l → l.prices ≠ []
  fwd : ∀ id lm, lookupKey id m.prices = some lm →
    ∃ l liq, lookupKey lm.price (sideStore m lm.side) = some l ∧
      lookupKey id l.prices = some liq

theorem invA_new : InvA new := by
  refine ⟨?_, ?_, ?_, ?_, ?_⟩
  · intro side
    cases side <;> simp [sideStore, new, KeysSorted]
  · simp [new, KeysSorted]
  · intro side p l h
    cases side <;> simp [sideStore, new, lookupKey] at h
  · intro side p l h
    cases side <;> simp [sideStore, new, lookupKey] at h
  · intro id lm h
    simp [new, lookupKey] at h

theorem invA_clear (m : L3MarketData) : InvA (clear m) := invA_new

/-- An order left untouched by `remove_price` (different id) is still
found at its price afterwards. -/
theorem remove_price_keeps (s : List (Int × MarketLevel)) (id id2 : Nat)
    (price : Int) (hs : KeysSorted s) {p2 : Int} {lv2 : MarketLevel}
    {liq2 : MarketLiquidity} (hid : id2 ≠ id)
    (hl2 : lookupKey p2 s = some lv2)
    (hliq2 : lookupKey id2 lv2.prices = some liq2) :
    ∃ l3, lookupKey p2 (remove_price s id price) = some l3 ∧
      lookupKey id2 l3.prices = some liq2 := by
  by_cases hp2 : p2 = price
  · subst hp2
    cases hliq : lookupKey id lv2.prices with
    | none =>
      rw [remove_price_noliq s id p2 hl2 hliq]
      exact ⟨lv2, hl2, hliq2⟩
    | some liq0 =>
      have hkeep : lookupKey id2 (eraseKey id lv2.prices) = some liq2 := by
        rw [lookupKey_eraseKey_ne hid]
        exact hliq2
      have hne : eraseKey id lv2.prices ≠ [] :=
        List.ne_nil_of_mem (lookupKey_mem hkeep)
      refine ⟨⟨lv2.size - liq0.size, eraseKey id lv2.prices⟩, ?_, hkeep⟩
      rw [lookupKey_remove_price_self s id p2 hs hl2 hliq, if_neg hne]
  · exact ⟨lv2, by rw [lookupKey_remove_price_ne s id price p2 hp2]; exact hl2, hliq2⟩

/-- An order left untouched by `add_price` (different id) is still found
at its price afterwards. -/
theorem add_price_keeps (s : List (Int × MarketLevel)) (id id2 : Nat)
    (price size : Int) {p2 : Int} {lv2 : MarketLevel} {liq2 : MarketLiquidity}
    (hid : id2 ≠ id) (hl2 : lookupKey p2 s = some lv2)
    (hliq2 : lookupKey id2 lv2.prices = some liq2) :
    ∃ l3, lookupKey p2 (add_price s id price size) = some l3 ∧
      lookupKey id2 l3.prices = some liq2 := by
  by_cases hp2 : p2 = price
  · subst hp2
    refine ⟨⟨((lookupKey p2 s).getD ⟨0, []⟩).size + size,
      insertSorted id ⟨size⟩ ((lookupKey p2 s).getD ⟨0, []⟩).prices⟩, ?_, ?_⟩
    · rw [lookupKey_add_price, if_pos rfl]
    · rw [hl2]
      simp only [Option.getD_some]
      rw [lookupKey_insertSorted_ne hid]
      exact hliq2
  · exact ⟨lv2, by rw [lookupKey_add_price, if_neg hp2]; exact hl2, hliq2⟩

/-- `add_price` keeps levels sorted and non-empty. -/
theorem add_price_levels (s : List (Int × MarketLevel)) (id : Nat)
    (price size : Int)
    (hlsort : ∀ p l, lookupKey p s = some l → KeysSorted l.prices)
    (hlne : ∀ p l, lookupKey p s = some l → l.prices ≠ []) :
    ∀ p l, lookupKey p (add_price s id price size) = some l →
      KeysSorted l.prices ∧ l.prices ≠ [] := by
  intro p l hl
  rw [lookupKey_add_price] at hl
  by_cases hp : p = price
  · rw [if_pos hp] at hl
    have hl2 := Option.some.inj hl
    subst hl2
    refine ⟨?_, insertSorted_ne_nil⟩
    cases hent : lookupKey price s with
    | none => simp [KeysSorted, insertSorted]
    | some l0 =>
      simp only [Option.getD_some]
      exact keysSorted_insertSorted (hlsort price l0 hent)
  · rw [if_neg hp] at hl
    exact ⟨hlsort p l hl, hlne p l hl⟩

/-- `remove_price` keeps levels sorted and non-empty. -/
theorem remove_price_levels (s : List (Int × MarketLevel)) (id : Nat)
    (price : Int) (hs : KeysSorted s)
    (hlsort : ∀ p l, lookupKey p s = some l → KeysSorted l.prices)
    (hlne : ∀ p l, lookupKey p s = some l → l.prices ≠ []) :
    ∀ p l, lookupKey p (remove_price s id price) = some l →
      KeysSorted l.prices ∧ l.prices ≠ [] := by
  intro p l hl
  by_cases hp : p = price
  · subst hp
    cases hlv : lookupKey p s with
    | none =>
      rw [remove_price_nolevel s id p hlv] at hl
      exact ⟨hlsort p l hl, hlne p l hl⟩
    | some level =>
      cases hliq : lookupKey id level.prices with
      | none =>
        rw [remove_price_noliq s id p hlv hliq] at hl
        exact ⟨hlsort p l hl, hlne p l hl⟩
      | some liq0 =>
        rw [lookupKey_remove_price_self s id p hs hlv hliq] at hl
        by_cases he : eraseKey id level.prices = []
        · rw [if_pos he] at hl
          exact Option.noConfusion hl
        · rw [if_neg he] at hl
          have hl2 := Option.some.inj hl
          subst hl2
          exact ⟨keysSorted_eraseKey (hlsort p level hlv), he⟩
  · rw [lookupKey_remove_price_ne s id price p hp] at hl
    exact ⟨hlsort p l hl, hlne p l hl⟩

theorem invA_add (m : L3MarketData) (side : MarketSide) (id : Nat)
    (price size : Int) (h : InvA m) :
    InvA (update m UpdateAction.Add side id price size).1 := by
  rw [update_add_eq]
  dsimp only
  have hstore : ∀ side2, sideStore
      { setSideStore m side (add_price (sideStore m side) id price size) with
        prices := insertSorted id ⟨side, price⟩ m.prices } side2 =
      if side2 = side then add_price (sideStore m side) id price size
      else sideStore m side2 := by
    intro side2
    rw [sideStore_withPrices, sideStore_setSideStore]
  refine ⟨?_, ?_, ?_, ?_, ?_⟩
  · intro side2
    rw [hstore]
    by_cases hs2 : side2 = side
    · rw [if_pos hs2]
      exact keysSorted_add_price _ _ _ _ (h.store_sorted side)
    · rw [if_neg hs2]
      exact h.store_sorted side2
  · exact keysSorted_insertSorted h.index_sorted
  · intro side2 p l hl
    rw [hstore] at hl
    by_cases hs2 : side2 = side
    · rw [if_pos hs2] at hl
      exact (add_price_levels _ _ _ _ (h.level_sorted side) (h.level_nonempty side)
        p l hl).1
    · rw [if_neg hs2] at hl
      exact h.level_sorted side2 p l hl
  · intro side2 p l hl
    rw [hstore] at hl
    by_cases hs2 : side2 = side
    · rw [if_pos hs2] at hl
      exact (add_price_levels _ _ _ _ (h.level_sorted side) (h.level_nonempty side)
        p l hl).2
    · rw [if_neg hs2] at hl
      exact h.level_nonempty side2 p l hl
  · intro id2 lm2 hl2
    simp only at hl2
    by_cases hid2 : id2 = id
    · subst hid2
      rw [lookupKey_insertSorted_self] at hl2
      have hlm2 := Option.some.inj hl2
      subst hlm2
      dsimp only
      rw [hstore]
      rw [if_pos rfl]
      refine ⟨⟨((lookupKey price (sideStore m side)).getD ⟨0, []⟩).size + size,
        insertSorted id2 ⟨size⟩ ((lookupKey price (sideStore m side)).getD ⟨0, []⟩).prices⟩,
        ⟨size⟩, ?_, ?_⟩
      · rw [lookupKey_add_price, if_pos rfl]
      · exact lookupKey_insertSorted_self _
    · rw [lookupKey_insertSorted_ne hid2] at hl2
      obtain ⟨l2, liq2, hlv2, hliq2⟩ := h.fwd id2 lm2 hl2
      rw [hstore]
      by_cases hs2 : lm2.side = side
      · rw [if_pos hs2, ← hs2]
        obtain ⟨l3, hl3, hliq3⟩ := add_price_keeps _ id id2 price size hid2 hlv2 hliq2
        exact ⟨l3, liq2, hl3, hliq3⟩
      · rw [if_neg hs2]
        exact ⟨l2, liq2, hlv2, hliq2⟩

theorem invA_update_act (m : L3MarketData) (side : MarketSide) (id : Nat)
    (price size : Int) (h : InvA m) :
    InvA (update m UpdateAction.Update side id price size).1 := by
  cases hlm : lookupKey id m.prices with
  | none =>
    rw [update_upd_none m side id price size hlm]
    exact h
  | some lm =>
    cases hlv : lookupKey lm.price (sideStore m lm.side) with
    | none =>
      rw [update_upd_nolevel m side id price size hlm hlv]
      exact h
    | some level =>
      by_cases hp : lm.price = price
      · cases hliq : lookupKey id level.prices with
        | none =>
          rw [update_upd_same_noliq m side id price size hlm hlv hp hliq]
          exact h
        | some liquidity =>
          rw [update_upd_same m side id price size hlm hlv hp hliq]
          dsimp only
          have hstore : ∀ side2, sideStore (setSideStore m lm.side
              (insertSorted lm.price
                ⟨level.size + (size - liquidity.size), insertSorted id ⟨size⟩ level.prices⟩
                (sideStore m lm.side))) side2 =
              if side2 = lm.side then insertSorted lm.price
                ⟨level.size + (size - liquidity.size), insertSorted id ⟨size⟩ level.prices⟩
                (sideStore m lm.side)
              else sideStore m side2 := by
            intro side2
            rw [sideStore_setSideStore]
          have hlevels : ∀ p l, lookupKey p (insertSorted lm.price
              ⟨level.size + (size - liquidity.size), insertSorted id ⟨size⟩ level.prices⟩
              (sideStore m lm.side)) = some l →
              KeysSorted l.prices ∧ l.prices ≠ [] := by
            intro p l hl
            by_cases hp2 : p = lm.price
            · subst hp2
              rw [lookupKey_insertSorted_self] at hl
              have hl2 := Option.some.inj hl
              subst hl2
              exact ⟨keysSorted_insertSorted (h.level_sorted lm.side lm.price level hlv),
                insertSorted_ne_nil⟩
            · rw [lookupKey_insertSorted_ne hp2] at hl
              exact ⟨h.level_sorted lm.side p l hl, h.level_nonempty lm.side p l hl⟩
          refine ⟨?_, ?_, ?_, ?_, ?_⟩
          · intro side2
            rw [hstore]
            by_cases hs2 : side2 = lm.side
            · rw [if_pos hs2]
              exact keysSorted_insertSorted (h.store_sorted lm.side)
            · rw [if_neg hs2]
              exact h.store_sorted side2
          · rw [prices_setSideStore]
            exact h.index_sorted
          · intro side2 p l hl
            rw [hstore] at hl
            by_cases hs2 : side2 = lm.side
            · rw [if_pos hs2] at hl
              exact (hlevels p l hl).1
            · rw [if_neg hs2] at hl
              exact h.level_sorted side2 p l hl
          · intro side2 p l hl
            rw [hstore] at hl
            by_cases hs2 : side2 = lm.side
            · rw [if_pos hs2] at hl
              exact (hlevels p l hl).2
            · rw [if_neg hs2] at hl
              exact h.level_nonempty side2 p l hl
          · intro id2 lm2 hl2
            rw [prices_setSideStore] at hl2
            obtain ⟨l2, liq2, hlv2, hliq2⟩ := h.fwd id2 lm2 hl2
            rw [hstore]
            by_cases hs2 : lm2.side = lm.side
            · rw [if_pos hs2]
              rw [hs2] at hlv2
              by_cases hp2 : lm2.price = lm.price
              · rw [hp2] at hlv2
                have hl2eq : l2 = level := by
                  rw [hlv] at hlv2
                  exact (Option.some.inj hlv2).symm
                rw [hl2eq] at hliq2
                by_cases hid2 : id2 = id
                · refine ⟨⟨level.size + (size - liquidity.size),
                      insertSorted id ⟨size⟩ level.prices⟩, ⟨size⟩, ?_, ?_⟩
                  · rw [hp2]
                    exact lookupKey_insertSorted_self _
                  · rw [hid2]
                    exact lookupKey_insertSorted_self _
                · refine ⟨⟨level.size + (size - liquidity.size),
                      insertSorted id ⟨size⟩ level.prices⟩, liq2, ?_, ?_⟩
                  · rw [hp2]
                    exact lookupKey_insertSorted_self _
                  · rw [lookupKey_insertSorted_ne hid2]
                    exact hliq2
              · refine ⟨l2, liq2, ?_, hliq2⟩
                rw [lookupKey_insertSorted_ne hp2]
                exact hlv2
            · rw [if_neg hs2]
              exact ⟨l2, liq2, hlv2, hliq2⟩
      · rw [update_upd_move m side id price size hlm hlv hp]
        dsimp only
        have hpp : price ≠ lm.price := fun he => hp he.symm
        have hstore : ∀ side2, sideStore
            { setSideStore m lm.side
                (add_price (remove_price (sideStore m lm.side) id lm.price) id price size) with
              prices := insertSorted id ⟨lm.side, price⟩ m.prices } side2 =
            if side2 = lm.side then
              add_price (remove_price (sideStore m lm.side) id lm.price) id price size
            else sideStore m side2 := by
          intro side2
          rw [sideStore_withPrices, sideStore_setSideStore]
        have hrs : KeysSorted (remove_price (sideStore m lm.side) id lm.price) :=
          keysSorted_remove_price _ _ _ (h.store_sorted lm.side)
        have hrlevels := remove_price_levels (sideStore m lm.side) id lm.price
          (h.store_sorted lm.side) (h.level_sorted lm.side) (h.level_nonempty lm.side)
        have halevels := add_price_levels
          (remove_price (sideStore m lm.side) id lm.price) id price size
          (fun p l hl => (hrlevels p l hl).1) (fun p l hl => (hrlevels p l hl).2)
        refine ⟨?_, ?_, ?_, ?_, ?_⟩
        · intro side2
          rw [hstore]
          by_cases hs2 : side2 = lm.side
          · rw [if_pos hs2]
            exact keysSorted_add_price _ _ _ _ hrs
          · rw [if_neg hs2]
            exact h.store_sorted side2
        · exact keysSorted_insertSorted h.index_sorted
        · intro side2 p l hl
          rw [hstore] at hl
          by_cases hs2 : side2 = lm.side
          · rw [if_pos hs2] at hl
            exact (halevels p l hl).1
          · rw [if_neg hs2] at hl
            exact h.level_sorted side2 p l hl
        · intro side2 p l hl
          rw [hstore] at hl
          by_cases hs2 : side2 = lm.side
          · rw [if_pos hs2] at hl
            exact (halevels p l hl).2
          · rw [if_neg hs2] at hl
            exact h.level_nonempty side2 p l hl
        · intro id2 lm2 hl2
          simp only at hl2
          by_cases hid2 : id2 = id
          · subst hid2
            rw [lookupKey_insertSorted_self] at hl2
            have hlm2 := Option.some.inj hl2
            subst hlm2
            dsimp only
            rw [hstore]
            rw [if_pos rfl]
            refine ⟨⟨((lookupKey price (remove_price (sideStore m lm.side) id2 lm.price)).getD
                ⟨0, []⟩).size + size,
              insertSorted id2 ⟨size⟩
                ((lookupKey price (remove_price (sideStore m lm.side) id2 lm.price)).getD
                  ⟨0, []⟩).prices⟩, ⟨size⟩, ?_, ?_⟩
            · rw [lookupKey_add_price, if_pos rfl]
            · exact lookupKey_insertSorted_self _
          · rw [lookupKey_insertSorted_ne hid2] at hl2
            obtain ⟨l2, liq2, hlv2, hliq2⟩ := h.fwd id2 lm2 hl2
            rw [hstore]
            by_cases hs2 : lm2.side = lm.side
            · rw [if_pos hs2]
              rw [hs2] at hlv2
              obtain ⟨l3, hl3, hliq3⟩ :=
                remove_price_keeps (sideStore m lm.side) id id2 lm.price
                  (h.store_sorted lm.side) hid2 hlv2 hliq2
              obtain ⟨l4, hl4, hliq4⟩ := add_price_keeps _ id id2 price size hid2 hl3 hliq3
              exact ⟨l4, liq2, hl4, hliq4⟩
            · rw [if_neg hs2]
              exact ⟨l2, liq2, hlv2, hliq2⟩

theorem invA_remove (m : L3MarketData) (side : MarketSide) (id : Nat)
    (price size : Int) (h : InvA m) :
    InvA (update m UpdateAction.Remove side id price size).1 := by
  cases hlm : lookupKey id m.prices with
  | none =>
    rw [update_rem_none m side id price size hlm]
    exact h
  | some lm =>
    rw [update_rem_some m side id price size hlm]
    dsimp only
    have hstore : ∀ side2, sideStore
        (setSideStore { m with prices := eraseKey id m.prices } lm.side
          (remove_price (sideStore m lm.side) id lm.price)) side2 =
        if side2 = lm.side then remove_price (sideStore m lm.side) id lm.price
        else sideStore m side2 := by
      intro side2
      rw [sideStore_setSideStore]
      by_cases hs2 : side2 = lm.side
      · rw [if_pos hs2, if_pos hs2]
      · rw [if_neg hs2, if_neg hs2, sideStore_withPrices]
    have hprices : (setSideStore { m with prices := eraseKey id m.prices } lm.side
        (remove_price (sideStore m lm.side) id lm.price)).prices =
        eraseKey id m.prices := by
      rw [prices_setSideStore]
    have hrlevels := remove_price_levels (sideStore m lm.side) id lm.price
      (h.store_sorted lm.side) (h.level_sorted lm.side) (h.level_nonempty lm.side)
    refine ⟨?_, ?_, ?_, ?_, ?_⟩
    · intro side2
      rw [hstore]
      by_cases hs2 : side2 = lm.side
      · rw [if_pos hs2]
        exact keysSorted_remove_price _ _ _ (h.store_sorted lm.side)
      · rw [if_neg hs2]
        exact h.store_sorted side2
    · rw [hprices]
      exact keysSorted_eraseKey h.index_sorted
    · intro side2 p l hl
      rw [hstore] at hl
      by_cases hs2 : side2 = lm.side
      · rw [if_pos hs2] at hl
        exact (hrlevels p l hl).1
      · rw [if_neg hs2] at hl
        exact h.level_sorted side2 p l hl
    · intro side2 p l hl
      rw [hstore] at hl
      by_cases hs2 : side2 = lm.side
      · rw [if_pos hs2] at hl
        exact (hrlevels p l hl).2
      · rw [if_neg hs2] at hl
        exact h.level_nonempty side2 p l hl
    · intro id2 lm2 hl2
      rw [hprices] at hl2
      by_cases hid2 : id2 = id
      · subst hid2
        rw [lookupKey_eraseKey_self h.index_sorted] at hl2
        exact Option.noConfusion hl2
      · rw [lookupKey_eraseKey_ne hid2] at hl2
        obtain ⟨l2, liq2, hlv2, hliq2⟩ := h.fwd id2 lm2 hl2
        rw [hstore]
        by_cases hs2 : lm2.side = lm.side
        · rw [if_pos hs2]
          rw [hs2] at hlv2
          obtain ⟨l3, hl3, hliq3⟩ := remove_price_keeps (sideStore m lm.side) id id2 lm.price
            (h.store_sorted lm.side) hid2 hlv2 hliq2
          exact ⟨l3, liq2, hl3, hliq3⟩
        · rw [if_neg hs2]
          exact ⟨l2, liq2, hlv2, hliq2⟩

/-- The structural invariant holds in every reachable state. -/
theorem invA_reachable {m : L3MarketData} (h : Reachable m) : InvA m := by
  induction h with
  | init => exact invA_new
  | clears m2 _ _ => exact invA_clear m2
  | steps m2 _ a side id price size ih =>
    cases a with
    | Add => exact invA_add m2 side id price size ih
    | Update => exact invA_update_act m2 side id price size ih
    | Remove => exact invA_remove m2 side id price size ih

/-! ### Aggregate-size and back-index invariants (no duplicate `Add`) -/

/-- Full invariant: the structural invariant, plus each level's aggregate
size equals the sum of its per-order sizes, plus each order in a level is
indexed to exactly that side and price. -/
structure InvB (m : L3MarketData) : Prop where
  invA : InvA m
  agg : ∀ side p l, lookupKey p (sideStore m side) = some l →
    l.size = sumVals MarketLiquidity.size l.prices
  back : ∀ side p l, lookupKey p (sideStore m side) = some l →
    ∀ idl liq, lookupKey idl l.prices = some liq →
      lookupKey idl m.prices = some ⟨side, p⟩

theorem invB_new : InvB new := by
  refine ⟨invA_new, ?_, ?_⟩
  · intro side p l hl
    cases side <;> simp [sideStore, new, lookupKey] at hl
  · intro side p l hl
    cases side <;> simp [sideStore, new, lookupKey] at hl

theorem invB_clear (m : L3MarketData) : InvB (clear m) := invB_new

/-- `add_price` preserves the aggregate-size law when the order id is not
already present in the target level. -/
theorem add_price_agg (s : List (Int × MarketLevel)) (id : Nat) (price size : Int)
    (hagg : ∀ p l, lookupKey p s = some l → l.size = sumVals MarketLiquidity.size l.prices)
    (hfresh : ∀ l0, lookupKey price s = some l0 → lookupKey id l0.prices = none) :
    ∀ p l, lookupKey p (add_price s id price size) = some l →
      l.size = sumVals MarketLiquidity.size l.prices := by
  intro p l hl
  rw [lookupKey_add_price] at hl
  by_cases hp : p = price
  · rw [if_pos hp] at hl
    have hl2 := Option.some.inj hl
    subst hl2
    cases hent : lookupKey price s with
    | none => simp [sumVals, insertSorted]
    | some l0 =>
      simp only [Option.getD_some]
      rw [sumVals_insertSorted_none (hfresh l0 hent), ← hagg price l0 hent]
  · rw [if_neg hp] at hl
    exact hagg p l hl

/-- `remove_price` preserves the aggregate-size law. -/
theorem remove_price_agg (s : List (Int × MarketLevel)) (id : Nat) (price : Int)
    (hs : KeysSorted s)
    (hlsort : ∀ p l, lookupKey p s = some l → KeysSorted l.prices)
    (hagg : ∀ p l, lookupKey p s = some l → l.size = sumVals MarketLiquidity.size l.prices) :
    ∀ p l, lookupKey p (remove_price s id price) = some l →
      l.size = sumVals MarketLiquidity.size l.prices := by
  intro p l hl
  by_cases hp : p = price
  · subst hp
    cases hlv : lookupKey p s with
    | none =>
      rw [remove_price_nolevel s id p hlv] at hl
      exact hagg p l hl
    | some level =>
      cases hliq : lookupKey id level.prices with
      | none =>
        rw [remove_price_noliq s id p hlv hliq] at hl
        exact hagg p l hl
      | some liq0 =>
        rw [lookupKey_remove_price_self s id p hs hlv hliq] at hl
        by_cases he : eraseKey id level.prices = []
        · rw [if_pos he] at hl
          exact Option.noConfusion hl
        · rw [if_neg he] at hl
          have hl2 := Option.some.inj hl
          subst hl2
          rw [sumVals_eraseKey (hlsort p level hlv) hliq, ← hagg p level hlv]
  · rw [lookupKey_remove_price_ne s id price p hp] at hl
    exact hagg p l hl

theorem invB_add (m : L3MarketData) (side : MarketSide) (id : Nat)
    (price size : Int) (h : InvB m) (hid : lookupKey id m.prices = none) :
    InvB (update m UpdateAction.Add side id price size).1 := by
  have hfresh : ∀ l0, lookupKey price (sideStore m side) = some l0 →
      lookupKey id l0.prices = none := by
    intro l0 hl0
    cases hfid : lookupKey id l0.prices with
    | none => rfl
    | some liq =>
      have hb := h.back side price l0 hl0 id liq hfid
      rw [hid] at hb
      exact Option.noConfusion hb
  have hidlvl : ∀ side2 p l, lookupKey p (sideStore m side2) = some l →
      ∀ liq, lookupKey id l.prices = some liq → False := by
    intro side2 p l hl liq hliq
    have hb := h.back side2 p l hl id liq hliq
    rw [hid] at hb
    exact Option.noConfusion hb
  rw [update_add_eq]
  dsimp only
  have hstore : ∀ side2, sideStore
      { setSideStore m side (add_price (sideStore m side) id price size) with
        prices := insertSorted id ⟨side, price⟩ m.prices } side2 =
      if side2 = side then add_price (sideStore m side) id price size
      else sideStore m side2 := by
    intro side2
    rw [sideStore_withPrices, sideStore_setSideStore]
  refine ⟨?_, ?_, ?_⟩
  · have := invA_add m side id price size h.invA
    rw [update_add_eq] at this
    exact this
  · intro side2 p l hl
    rw [hstore] at hl
    by_cases hs2 : side2 = side
    · rw [if_pos hs2] at hl
      exact add_price_agg (sideStore m side) id price size (h.agg side) hfresh p l hl
    · rw [if_neg hs2] at hl
      exact h.agg side2 p l hl
  · intro side2 p l hl idl liq hliql
    simp only
    rw [hstore] at hl
    by_cases hs2 : side2 = side
    · rw [if_pos hs2] at hl
      rw [lookupKey_add_price] at hl
      by_cases hp : p = price
      · rw [if_pos hp] at hl
        have hl2 := Option.some.inj hl
        subst hl2
        by_cases hidl : idl = id
        · subst hidl
          rw [lookupKey_insertSorted_self, hs2, hp]
        · simp only at hliql
          rw [lookupKey_insertSorted_ne hidl] at hliql
          cases hent : lookupKey price (sideStore m side) with
          | none =>
            rw [hent] at hliql
            simp [lookupKey] at hliql
          | some l0 =>
            rw [hent] at hliql
            simp only [Option.getD_some] at hliql
            have hb := h.back side price l0 hent idl liq hliql
            rw [lookupKey_insertSorted_ne hidl, hb, hs2, hp]
      · rw [if_neg hp] at hl
        have hidl : idl ≠ id := by
          intro he
          subst he
          exact hidlvl side p l hl liq hliql
        have hb := h.back side p l hl idl liq hliql
        rw [lookupKey_insertSorted_ne hidl, hb, hs2]
    · rw [if_neg hs2] at hl
      have hidl : idl ≠ id := by
        intro he
        subst he
        exact hidlvl side2 p l hl liq hliql
      have hb := h.back side2 p l hl idl liq hliql
      rw [lookupKey_insertSorted_ne hidl, hb]

theorem marketLiquidityMap_eta (lm : MarketLiquidityMap) :
    (⟨lm.side, lm.price⟩ : MarketLiquidityMap) = lm := rfl

theorem invB_update_act (m : L3MarketData) (side : MarketSide) (id : Nat)
    (price size : Int) (h : InvB m) :
    InvB (update m UpdateAction.Update side id price size).1 := by
  have hA := invA_update_act m side id price size h.invA
  cases hlm : lookupKey id m.prices with
  | none =>
    rw [update_upd_none m side id price size hlm]
    exact h
  | some lm =>
    cases hlv : lookupKey lm.price (sideStore m lm.side) with
    | none =>
      rw [update_upd_nolevel m side id price size hlm hlv]
      exact h
    | some level =>
      by_cases hp : lm.price = price
      · cases hliq : lookupKey id level.prices with
        | none =>
          rw [update_upd_same_noliq m side id price size hlm hlv hp hliq]
          exact h
        | some liquidity =>
          rw [update_upd_same m side id price size hlm hlv hp hliq] at hA ⊢
          dsimp only at hA ⊢
          have hstore : ∀ side2, sideStore (setSideStore m lm.side
              (insertSorted lm.price
                ⟨level.size + (size - liquidity.size), insertSorted id ⟨size⟩ level.prices⟩
                (sideStore m lm.side))) side2 =
              if side2 = lm.side then insertSorted lm.price
                ⟨level.size + (size - liquidity.size), insertSorted id ⟨size⟩ level.prices⟩
                (sideStore m lm.side)
              else sideStore m side2 := by
            intro side2
            rw [sideStore_setSideStore]
          refine ⟨hA, ?_, ?_⟩
          · intro side2 p l hl
            rw [hstore] at hl
            by_cases hs2 : side2 = lm.side
            · rw [if_pos hs2] at hl
              by_cases hp2 : p = lm.price
              · subst hp2
                rw [lookupKey_insertSorted_self] at hl
                have hl2 := Option.some.inj hl
                subst hl2
                simp only
                rw [sumVals_insertSorted_some (h.invA.level_sorted lm.side lm.price level hlv)
                  hliq, ← h.agg lm.side lm.price level hlv]
                ring
              · rw [lookupKey_insertSorted_ne hp2] at hl
                exact h.agg lm.side p l hl
            · rw [if_neg hs2] at hl
              exact h.agg side2 p l hl
          · intro side2 p l hl idl liq hliql
            rw [prices_setSideStore]
            rw [hstore] at hl
            by_cases hs2 : side2 = lm.side
            · rw [if_pos hs2] at hl
              by_cases hp2 : p = lm.price
              · subst hp2
                rw [lookupKey_insertSorted_self] at hl
                have hl2 := Option.some.inj hl
                subst hl2
                simp only at hliql
                by_cases hidl : idl = id
                · subst hidl
                  rw [hlm, hs2]
                · rw [lookupKey_insertSorted_ne hidl] at hliql
                  rw [h.back lm.side lm.price level hlv idl liq hliql, hs2]
              · rw [lookupKey_insertSorted_ne hp2] at hl
                rw [h.back lm.side p l hl idl liq hliql, hs2]
            · rw [if_neg hs2] at hl
              exact h.back side2 p l hl idl liq hliql
      · obtain ⟨level0, liq0, hlv0, hliq0⟩ := h.invA.fwd id lm hlm
        have hlevel0 : level0 = level := by
          rw [hlv] at hlv0
          exact (Option.some.inj hlv0).symm
        rw [hlevel0] at hliq0
        rw [update_upd_move m side id price size hlm hlv hp] at hA ⊢
        dsimp only at hA ⊢
        have hpp : price ≠ lm.price := fun he => hp he.symm
        have hstore : ∀ side2, sideStore
            { setSideStore m lm.side
                (add_price (remove_price (sideStore m lm.side) id lm.price) id price size) with
              prices := insertSorted id ⟨lm.side, price⟩ m.prices } side2 =
            if side2 = lm.side then
              add_price (remove_price (sideStore m lm.side) id lm.price) id price size
            else sideStore m side2 := by
          intro side2
          rw [sideStore_withPrices, sideStore_setSideStore]
        have hragg := remove_price_agg (sideStore m lm.side) id lm.price
          (h.invA.store_sorted lm.side) (h.invA.level_sorted lm.side) (h.agg lm.side)
        have hfresh : ∀ l0, lookupKey price (remove_price (sideStore m lm.side) id lm.price) =
            some l0 → lookupKey id l0.prices = none := by
          intro l0 hl0
          rw [lookupKey_remove_price_ne _ _ _ _ hpp] at hl0
          cases hfid : lookupKey id l0.prices with
          | none => rfl
          | some liq1 =>
            have hb := h.back lm.side price l0 hl0 id liq1 hfid
            rw [hlm] at hb
            have hlmq := Option.some.inj hb
            exact absurd (congrArg MarketLiquidityMap.price hlmq) hp
        refine ⟨hA, ?_, ?_⟩
        · intro side2 p l hl
          rw [hstore] at hl
          by_cases hs2 : side2 = lm.side
          · rw [if_pos hs2] at hl
            exact add_price_agg _ id price size hragg hfresh p l hl
          · rw [if_neg hs2] at hl
            exact h.agg side2 p l hl
        · intro side2 p l hl idl liq hliql
          simp only
          rw [hstore] at hl
          by_cases hs2 : side2 = lm.side
          · rw [if_pos hs2] at hl
            rw [lookupKey_add_price] at hl
            by_cases hpq : p = price
            · rw [if_pos hpq] at hl
              have hl2 := Option.some.inj hl
              subst hl2
              simp only at hliql
              by_cases hidl : idl = id
              · subst hidl
                rw [lookupKey_insertSorted_self, hs2, hpq]
              · rw [lookupKey_insertSorted_ne hidl] at hliql
                cases hent : lookupKey price (remove_price (sideStore m lm.side) id lm.price) with
                | none =>
                  rw [hent] at hliql
                  simp [lookupKey] at hliql
                | some l0 =>
                  rw [hent] at hliql
                  simp only [Option.getD_some] at hliql
                  have hent2 := hent
                  rw [lookupKey_remove_price_ne _ _ _ _ hpp] at hent2
                  have hb := h.back lm.side price l0 hent2 idl liq hliql
                  rw [lookupKey_insertSorted_ne hidl, hb, hs2, hpq]
            · rw [if_neg hpq] at hl
              by_cases hpl : p = lm.price
              · subst hpl
                rw [lookupKey_remove_price_self _ _ _ (h.invA.store_sorted lm.side) hlv hliq0]
                  at hl
                by_cases he : eraseKey id level.prices = []
                · rw [if_pos he] at hl
                  exact Option.noConfusion hl
                · rw [if_neg he] at hl
                  have hl2 := Option.some.inj hl
                  subst hl2
                  simp only at hliql
                  have hidl : idl ≠ id :=
                    key_ne_of_mem_eraseKey (h.invA.level_sorted lm.side lm.price level hlv)
                      (lookupKey_mem hliql)
                  rw [lookupKey_eraseKey_ne hidl] at hliql
                  rw [lookupKey_insertSorted_ne hidl,
                    h.back lm.side lm.price level hlv idl liq hliql, hs2]
              · rw [lookupKey_remove_price_ne _ _ _ _ hpl] at hl
                have hidl : idl ≠ id := by
                  intro he
                  subst he
                  have hb := h.back lm.side p l hl idl liq hliql
                  rw [hlm] at hb
                  have hlmq := Option.some.inj hb
                  exact hpl (congrArg MarketLiquidityMap.price hlmq).symm
                rw [lookupKey_insertSorted_ne hidl,
                  h.back lm.side p l hl idl liq hliql, hs2]
          · rw [if_neg hs2] at hl
            have hidl : idl ≠ id := by
              intro he
              subst he
              have hb := h.back side2 p l hl idl liq hliql
              rw [hlm] at hb
              have hlmq := Option.some.inj hb
              exact hs2 (congrArg MarketLiquidityMap.side hlmq).symm
            rw [lookupKey_insertSorted_ne hidl]
            exact h.back side2 p l hl idl liq hliql

theorem invB_remove (m : L3MarketData) (side : MarketSide) (id : Nat)
    (price size : Int) (h : InvB m) :
    InvB (update m UpdateAction.Remove side id price size).1 := by
  have hA := invA_remove m side id price size h.invA
  cases hlm : lookupKey id m.prices with
  | none =>
    rw [update_rem_none m side id price size hlm]
    exact h
  | some lm =>
    obtain ⟨level, liq0, hlv, hliq0⟩ := h.invA.fwd id lm hlm
    rw [update_rem_some m side id price size hlm] at hA ⊢
    dsimp only at hA ⊢
    have hstore : ∀ side2, sideStore
        (setSideStore { m with prices := eraseKey id m.prices } lm.side
          (remove_price (sideStore m lm.side) id lm.price)) side2 =
        if side2 = lm.side then remove_price (sideStore m lm.side) id lm.price
        else sideStore m side2 := by
      intro side2
      rw [sideStore_setSideStore]
      by_cases hs2 : side2 = lm.side
      · rw [if_pos hs2, if_pos hs2]
      · rw [if_neg hs2, if_neg hs2, sideStore_withPrices]
    have hprices : (setSideStore { m with prices := eraseKey id m.prices } lm.side
        (remove_price (sideStore m lm.side) id lm.price)).prices =
        eraseKey id m.prices := by
      rw [prices_setSideStore]
    refine ⟨hA, ?_, ?_⟩
    · intro side2 p l hl
      rw [hstore] at hl
      by_cases hs2 : side2 = lm.side
      · rw [if_pos hs2] at hl
        exact remove_price_agg (sideStore m lm.side) id lm.price
          (h.invA.store_sorted lm.side) (h.invA.level_sorted lm.side) (h.agg lm.side) p l hl
      · rw [if_neg hs2] at hl
        exact h.agg side2 p l hl
    · intro side2 p l hl idl liq hliql
      rw [hprices]
      rw [hstore] at hl
      by_cases hs2 : side2 = lm.side
      · rw [if_pos hs2] at hl
        by_cases hpl : p = lm.price
        · subst hpl
          rw [lookupKey_remove_price_self _ _ _ (h.invA.store_sorted lm.side) hlv hliq0] at hl
          by_cases he : eraseKey id level.prices = []
          · rw [if_pos he] at hl
            exact Option.noConfusion hl
          · rw [if_neg he] at hl
            have hl2 := Option.some.inj hl
            subst hl2
            simp only at hliql
            have hidl : idl ≠ id :=
              key_ne_of_mem_eraseKey (h.invA.level_sorted lm.side lm.price level hlv)
                (lookupKey_mem hliql)
            rw [lookupKey_eraseKey_ne hidl] at hliql
            rw [lookupKey_eraseKey_ne hidl, h.back lm.side lm.price level hlv idl liq hliql,
              hs2]
        · rw [lookupKey_remove_price_ne _ _ _ _ hpl] at hl
          have hidl : idl ≠ id := by
            intro he
            subst he
            have hb := h.back lm.side p l hl idl liq hliql
            rw [hlm] at hb
            have hlmq := Option.some.inj hb
            exact hpl (congrArg MarketLiquidityMap.price hlmq).symm
          rw [lookupKey_eraseKey_ne hidl, h.back lm.side p l hl idl liq hliql, hs2]
      · rw [if_neg hs2] at hl
        have hidl : idl ≠ id := by
          intro he
          subst he
          have hb := h.back side2 p l hl idl liq hliql
          rw [hlm] at hb
          have hlmq := Option.some.inj hb
          exact hs2 (congrArg MarketLiquidityMap.side hlmq).symm
        rw [lookupKey_eraseKey_ne hidl]
        exact h.back side2 p l hl idl liq hliql

/-- The full invariant holds in every state reachable without duplicate
`Add`. -/
theorem invB_reachableND {m : L3MarketData} (h : ReachableND m) : InvB m := by
  induction h with
  | init => exact invB_new
  | clears m2 _ _ => exact invB_clear m2
  | adds m2 _ side id price size hid ih => exact invB_add m2 side id price size ih hid
  | upds m2 _ side id price size ih => exact invB_update_act m2 side id price size ih
  | rems m2 _ side id price size ih => exact invB_remove m2 side id price size ih

end L3MarketData

/-! ## Claim-facing predicates -/

namespace L3MarketData

/-- Invariant (b) of the spec: every price level present on either side
has its aggregate size equal to the sum of the sizes in its per-order
map. -/
def AggregateInvariant (m : L3MarketData) : Prop :=
  (∀ pl ∈ m.bids, pl.2.size = sumVals MarketLiquidity.size pl.2.prices) ∧
  (∀ pl ∈ m.offers, pl.2.size = sumVals MarketLiquidity.size pl.2.prices)

/-- Invariant (c) of the spec: no price level with an empty order map
exists on either side. -/
def NoEmptyLevels (m : L3MarketData) : Prop :=
  (∀ pl ∈ m.bids, pl.2.prices ≠ []) ∧ (∀ pl ∈ m.offers, pl.2.prices ≠ [])

/-- The invalid-reference condition of the spec: the id is absent from
the order index, or present but the referenced side's price level or that
level's order entry for the id is missing. -/
def invalidRef (m : L3MarketData) (id : Nat) : Prop :=
  lookupKey id m.prices = none ∨
  ∃ lm, lookupKey id m.prices = some lm ∧
    (lookupKey lm.price (sideStore m lm.side) = none ∨
     ∃ l, lookupKey lm.price (sideStore m lm.side) = some l ∧
       lookupKey id l.prices = none)

theorem aggregateInvariant_of_invB {m : L3MarketData} (h : InvB m) :
    AggregateInvariant m := by
  constructor
  · intro pl hm
    exact h.agg MarketSide.Bid pl.1 pl.2
      (lookupKey_eq_some_of_mem (h.invA.store_sorted MarketSide.Bid) hm)
  · intro pl hm
    exact h.agg MarketSide.Offer pl.1 pl.2
      (lookupKey_eq_some_of_mem (h.invA.store_sorted MarketSide.Offer) hm)

theorem noEmptyLevels_of_invA {m : L3MarketData} (h : InvA m) :
    NoEmptyLevels m := by
  constructor
  · intro pl hm
    exact h.level_nonempty MarketSide.Bid pl.1 pl.2
      (lookupKey_eq_some_of_mem (h.store_sorted MarketSide.Bid) hm)
  · intro pl hm
    exact h.level_nonempty MarketSide.Offer pl.1 pl.2
      (lookupKey_eq_some_of_mem (h.store_sorted MarketSide.Offer) hm)

end L3MarketData

namespace L2SweepableMarketData

/-- The side selection `match side { Bid => &mut self.bids, Offer => &mut self.offers }`. -/
def sideStore (m : L2SweepableMarketData) : MarketSide → List (Int × Int)
  | MarketSide.Bid => m.bids
  | MarketSide.Offer => m.offers

end L2SweepableMarketData

/-! ## Claims -/

open L3MarketData in
/-- C1: for every reachable L3 state and every order id, `update` with
action `Update` or `Remove` returns the `InvalidReference` failure result
if and only if the id is absent from the order index, or present but with
the referenced side's price level or that level's order entry missing
(index/level disagreement); the operation is a total function and never
crashes. -/
theorem claim_C1_invalid_reference_iff (m : L3MarketData) (h : Reachable m)
    (side : MarketSide) (id : Nat) (price size : Int) :
    (((m.update UpdateAction.Update side id price size).2 = Except.error ()) ↔
      invalidRef m id) ∧
    (((m.update UpdateAction.Remove side id price size).2 = Except.error ()) ↔
      invalidRef m id) := by
  have hA := invA_reachable h
  cases hlm : lookupKey id m.prices with
  | none =>
    constructor
    · rw [update_upd_none m side id price size hlm]
      exact iff_of_true rfl (Or.inl hlm)
    · rw [update_rem_none m side id price size hlm]
      exact iff_of_true rfl (Or.inl hlm)
  | some lm =>
    obtain ⟨l, liq, hlv, hliq⟩ := hA.fwd id lm hlm
    have hnref : ¬ invalidRef m id := by
      rintro (hnone | ⟨lm2, hlm2, hbad⟩)
      · rw [hlm] at hnone
        exact Option.noConfusion hnone
      · rw [hlm] at hlm2
        have hlmeq := Option.some.inj hlm2
        rw [← hlmeq] at hbad
        rcases hbad with hnone | ⟨l2, hl2, hliq2⟩
        · rw [hlv] at hnone
          exact Option.noConfusion hnone
        · rw [hlv] at hl2
          have hleq := Option.some.inj hl2
          rw [← hleq] at hliq2
          rw [hliq] at hliq2
          exact Option.noConfusion hliq2
    constructor
    · by_cases hp : lm.price = price
      · rw [update_upd_same m side id price size hlm hlv hp hliq]
        exact iff_of_false (fun hee => Except.noConfusion hee) hnref
      · rw [update_upd_move m side id price size hlm hlv hp]
        exact iff_of_false (fun hee => Except.noConfusion hee) hnref
    · rw [update_rem_some m side id price size hlm]
      exact iff_of_false (fun hee => Except.noConfusion hee) hnref

open L3MarketData in
/-- C1 witness: the theorem instantiated at the empty book and id 5. -/
theorem claim_C1_witness :
    (((L3MarketData.new.update UpdateAction.Update MarketSide.Bid 5 12 10).2 =
      Except.error ()) ↔ invalidRef L3MarketData.new 5) ∧
    (((L3MarketData.new.update UpdateAction.Remove MarketSide.Bid 5 12 10).2 =
      Except.error ()) ↔ invalidRef L3MarketData.new 5) :=
  claim_C1_invalid_reference_iff L3MarketData.new Reachable.init MarketSide.Bid 5 12 10

/-- C2 counterexample: on the empty book, an L2 sweepable `Update` at the
absent price 12 does not insert (the bid map stays empty), while an `Add`
at the same price inserts size 10 — so `Update` does not behave as `Add`
on an absent price. -/
theorem claim_C2_counterexample :
    (L2SweepableMarketData.update L2SweepableMarketData.new UpdateAction.Update
      MarketSide.Bid 12 10).bids = [] ∧
    (L2SweepableMarketData.update L2SweepableMarketData.new UpdateAction.Add
      MarketSide.Bid 12 10).bids = [(12, 10)] :=
  ⟨rfl, rfl⟩

open L2SweepableMarketData in
/-- C2 amended: for the L2 sweepable model, `update` with action `Update`
at a price not present on the side is a silent no-op (the state is
returned unchanged, no error is signaled); `update` with action `Remove`
deletes the price entry from the side's map outright rather than
decrementing it. -/
theorem claim_C2_amended (m : L2SweepableMarketData) (side : MarketSide)
    (price size : Int) :
    (lookupKey price (sideStore m side) = none →
      m.update UpdateAction.Update side price size = m) ∧
    sideStore (m.update UpdateAction.Remove side price size) side =
      eraseKey price (sideStore m side) := by
  cases side <;> constructor
  · intro h
    unfold update
    dsimp only
    rw [show lookupKey price (sideStore m MarketSide.Bid) = lookupKey price m.bids from rfl]
      at h
    rw [h]
  · rfl
  · intro h
    unfold update
    dsimp only
    rw [show lookupKey price (sideStore m MarketSide.Offer) = lookupKey price m.offers from
      rfl] at h
    rw [h]
  · rfl

open L2SweepableMarketData in
/-- C2 witness: the amended theorem instantiated at the empty book. -/
theorem claim_C2_witness :
    lookupKey 12 (sideStore L2SweepableMarketData.new MarketSide.Bid) = none ∧
    L2SweepableMarketData.update L2SweepableMarketData.new UpdateAction.Update
      MarketSide.Bid 12 10 = L2SweepableMarketData.new :=
  ⟨rfl, (claim_C2_amended L2SweepableMarketData.new MarketSide.Bid 12 10).1 rfl⟩

open L3MarketData in
/-- C3 counterexample: from `new`, `Add` of id 7 at bid price 12 size 10
followed by a duplicate `Add` of the same id at the same price with size
5 leaves the level at 12 with aggregate size 15 while its order map sums
to 5 — the aggregate-size invariant fails after this update sequence. -/
theorem claim_C3_counterexample :
    ¬ AggregateInvariant
      (((L3MarketData.new.update UpdateAction.Add MarketSide.Bid 7 12 10).1.update
        UpdateAction.Add MarketSide.Bid 7 12 5).1) := fun h =>
  absurd (h.1 (12, ⟨15, [(7, ⟨5⟩)]⟩) (by decide)) (by decide)

open L3MarketData in
/-- C3 amended: after every sequence of `update` and `clear` operations
starting from `new` in which every `Add` uses an order id not currently
in the order index, every price level present on either side has its
aggregate size equal to the sum of the sizes in its per-order map. -/
theorem claim_C3_amended (m : L3MarketData) (h : ReachableND m) :
    AggregateInvariant m :=
  aggregateInvariant_of_invB (invB_reachableND h)

open L3MarketData in
/-- C3 witness: the amended invariant holds after two distinct-id adds at
the same price. -/
theorem claim_C3_witness :
    AggregateInvariant
      (((L3MarketData.new.update UpdateAction.Add MarketSide.Bid 7 12 10).1.update
        UpdateAction.Add MarketSide.Bid 8 12 5).1) :=
  claim_C3_amended _
    (ReachableND.adds _
      (ReachableND.adds _ ReachableND.init MarketSide.Bid 7 12 10 rfl)
      MarketSide.Bid 8 12 5 rfl)

/-- C4: the panic-freeness claim is contradicted by the code at the
failing input `get_price(0)` on a non-empty side.  With integer amounts
the VWAP sweep reaches `current_total / current_size` with
`current_size = 0`, and Rust integer division panics on a zero divisor
(embedded here as the `none` result); the L3 sweep fails identically.
L1 and L2 full-amount `get_price` contain no division and are
unaffected. -/
theorem claim_C4_get_price_zero_panics :
    L2SweepableMarketData.get_price ⟨[(12, 10)], []⟩ 0 = none ∧
    L3MarketData.get_price ⟨[(12, ⟨10, [(7, ⟨10⟩)]⟩)], [],
      [(7, ⟨MarketSide.Bid, 12⟩)]⟩ 0 = none :=
  ⟨rfl, rfl⟩

open L3MarketData in
/-- C5: for every L3 state (reachable or not) and every id not present in
the order index, `update` with action `Update` or `Remove` returns the
`InvalidReference` failure and returns the state — bid map, offer map and
order index — exactly unchanged. -/
theorem claim_C5_unknown_id_unchanged (m : L3MarketData) (side : MarketSide)
    (id : Nat) (price size : Int) (h : lookupKey id m.prices = none) :
    m.update UpdateAction.Update side id price size = (m, Except.error ()) ∧
    m.update UpdateAction.Remove side id price size = (m, Except.error ()) :=
  ⟨update_upd_none m side id price size h, update_rem_none m side id price size h⟩

/-- C5 witness: the theorem instantiated at the empty book and id 5. -/
theorem claim_C5_witness :
    lookupKey 5 L3MarketData.new.prices = none ∧
    L3MarketData.new.update UpdateAction.Update MarketSide.Bid 5 12 10 =
      (L3MarketData.new, Except.error ()) ∧
    L3MarketData.new.update UpdateAction.Remove MarketSide.Bid 5 12 10 =
      (L3MarketData.new, Except.error ()) :=
  ⟨rfl, (claim_C5_unknown_id_unchanged L3MarketData.new MarketSide.Bid 5 12 10 rfl).1,
    (claim_C5_unknown_id_unchanged L3MarketData.new MarketSide.Bid 5 12 10 rfl).2⟩

/-- The L2 sweepable book of the spec's worked example: bids
`{12:10, 10:10, 8:10, 6:10}`, offers `{16:10, 20:20, 24:10}`, built by
the same `Add` sequence as the crate's `sweepable_get_vwap_price` test. -/
def l2ExampleBook : L2SweepableMarketData :=
  ((((((L2SweepableMarketData.new.update UpdateAction.Add MarketSide.Bid 12 10).update
    UpdateAction.Add MarketSide.Bid 10 10).update
    UpdateAction.Add MarketSide.Bid 8 10).update
    UpdateAction.Add MarketSide.Bid 6 10).update
    UpdateAction.Add MarketSide.Offer 16 10).update
    UpdateAction.Add MarketSide.Offer 20 20).update
    UpdateAction.Add MarketSide.Offer 24 10

/-- C6: on the example book, the VWAP sweep yields
`get_price(20) = (bid 11, offer 18)` and `get_price(40) = (bid 9,
offer 20)`, exactly as the spec requires. -/
theorem claim_C6_vwap_example :
    l2ExampleBook.get_price 20 =
      some (BidOffer.new_with_price (some 11) (some 18)) ∧
    l2ExampleBook.get_price 40 =
      some (BidOffer.new_with_price (some 9) (some 20)) :=
  ⟨rfl, rfl⟩

open L1MarketData in
/-- C7: every L1 mutator emits the full callback registry, synchronously
and in registration order, if and only if the state it returns differs
from the state it started from; setting an unchanged value emits no
notification. -/
theorem claim_C7_notify_iff_changed :
    (∀ (m : L1MarketData) (b : Option Int),
      (m.update_bid b).2 = if (m.update_bid b).1 = m then [] else m.callbacks) ∧
    (∀ (m : L1MarketData) (o : Option Int),
      (m.update_offer o).2 = if (m.update_offer o).1 = m then [] else m.callbacks) ∧
    (∀ (m : L1MarketData) (b : Option Int),
      (m.update_max_bid b).2 = if (m.update_max_bid b).1 = m then [] else m.callbacks) ∧
    (∀ (m : L1MarketData) (o : Option Int),
      (m.update_max_offer o).2 =
        if (m.update_max_offer o).1 = m then [] else m.callbacks) ∧
    (∀ (m : L1MarketData) (b o : Option Int),
      (m.update b o).2 = if (m.update b o).1 = m then [] else m.callbacks) ∧
    (∀ (m : L1MarketData) (p : BidOffer Int),
      (m.update_price p).2 = if (m.update_price p).1 = m then [] else m.callbacks) ∧
    (∀ (m : L1MarketData) (b o mb mo : Option Int),
      (m.update_with_max b o mb mo).2 =
        if (m.update_with_max b o mb mo).1 = m then [] else m.callbacks) ∧
    (∀ (m : L1MarketData) (x : BidOffer Int),
      (m.update_max x).2 = if (m.update_max x).1 = m then [] else m.callbacks) ∧
    (∀ (m : L1MarketData) (p x : BidOffer Int),
      (m.update_price_with_max p x).2 =
        if (m.update_price_with_max p x).1 = m then [] else m.callbacks) ∧
    (∀ m : L1MarketData,
      m.clear.2 = if m.clear.1 = m then [] else m.callbacks) := by
  refine ⟨?_, ?_, ?_, ?_, ?_, ?_, ?_, ?_, ?_, ?_⟩
  · intro m b
    unfold update_bid
    by_cases hc : m.price.get_bid ≠ b
    · rw [if_pos hc]
      have hne : ({ m with price := BidOffer.new_with_price b m.price.get_offer } : L1MarketData) ≠ m := fun he => hc (by rw [← he]; rfl)
      rw [if_neg hne]
      rfl
    · rw [if_neg hc, if_pos rfl]
  · intro m o
    unfold update_offer
    by_cases hc : m.price.get_offer ≠ o
    · rw [if_pos hc]
      have hne : ({ m with price := BidOffer.new_with_price m.price.get_bid o } : L1MarketData) ≠ m := fun he => hc (by rw [← he]; rfl)
      rw [if_neg hne]
      rfl
    · rw [if_neg hc, if_pos rfl]
  · intro m b
    unfold update_max_bid
    by_cases hc : m.max.get_bid ≠ b
    · rw [if_pos hc]
      have hne : ({ m with max := BidOffer.new_with_price b m.max.get_offer } : L1MarketData) ≠ m := fun he => hc (by rw [← he]; rfl)
      rw [if_neg hne]
      rfl
    · rw [if_neg hc, if_pos rfl]
  · intro m o
    unfold update_max_offer
    by_cases hc : m.max.get_offer ≠ o
    · rw [if_pos hc]
      have hne : ({ m with max := BidOffer.new_with_price m.max.get_bid o } : L1MarketData) ≠ m := fun he => hc (by rw [← he]; rfl)
      rw [if_neg hne]
      rfl
    · rw [if_neg hc, if_pos rfl]
  · intro m b o
    unfold update
    by_cases hc : m.price.get_bid ≠ b ∨ m.price.get_offer ≠ o
    · rw [if_pos hc]
      have hne : ({ m with price := BidOffer.new_with_price b o } : L1MarketData) ≠ m := by
        intro he
        rcases hc with hc | hc
        · exact hc (by rw [← he]; rfl)
        · exact hc (by rw [← he]; rfl)
      rw [if_neg hne]
      rfl
    · rw [if_neg hc, if_pos rfl]
  · intro m p
    unfold update_price
    by_cases hc : m.price ≠ p
    · rw [if_pos hc]
      have hne : ({ m with price := p } : L1MarketData) ≠ m := fun he => hc (by rw [← he])
      rw [if_neg hne]
      rfl
    · rw [if_neg hc, if_pos rfl]
  · intro m b o mb mo
    unfold update_with_max
    by_cases hc : m.price.get_bid ≠ b ∨ m.price.get_offer ≠ o ∨
        m.max.get_bid ≠ mb ∨ m.max.get_offer ≠ mo
    · rw [if_pos hc]
      have hne : ({ m with price := BidOffer.new_with_price b o, max := BidOffer.new_with_price mb mo } : L1MarketData) ≠ m := by
        intro he
        rcases hc with hc | hc | hc | hc
        · exact hc (by rw [← he]; rfl)
        · exact hc (by rw [← he]; rfl)
        · exact hc (by rw [← he]; rfl)
        · exact hc (by rw [← he]; rfl)
      rw [if_neg hne]
      rfl
    · rw [if_neg hc, if_pos rfl]
  · intro m x
    unfold update_max
    by_cases hc : m.max ≠ x
    · rw [if_pos hc]
      have hne : ({ m with max := x } : L1MarketData) ≠ m := fun he => hc (by rw [← he])
      rw [if_neg hne]
      rfl
    · rw [if_neg hc, if_pos rfl]
  · intro m p x
    unfold update_price_with_max
    by_cases hc : m.price ≠ p ∨ m.max ≠ x
    · rw [if_pos hc]
      have hne : ({ m with price := p, max := x } : L1MarketData) ≠ m := by
        intro he
        rcases hc with hc | hc
        · exact hc (by rw [← he])
        · exact hc (by rw [← he])
      rw [if_neg hne]
      rfl
    · rw [if_neg hc, if_pos rfl]
  · intro m
    unfold clear
    by_cases hc : (m.price.get_bid).isSome ∨ (m.price.get_offer).isSome ∨
        (m.max.get_bid).isSome ∨ (m.max.get_offer).isSome
    · rw [if_pos hc]
      have hne : ({ m with price := BidOffer.new, max := BidOffer.new } : L1MarketData) ≠ m := by
        intro he
        rcases hc with hc | hc | hc | hc
        · rw [← he] at hc
          simp [BidOffer.new, BidOffer.get_bid] at hc
        · rw [← he] at hc
          simp [BidOffer.new, BidOffer.get_offer] at hc
        · rw [← he] at hc
          simp [BidOffer.new, BidOffer.get_bid] at hc
        · rw [← he] at hc
          simp [BidOffer.new, BidOffer.get_offer] at hc
      rw [if_neg hne]
      rfl
    · rw [if_neg hc, if_pos rfl]

/-- C8: for every L1 state and size, `get_price` returns the current bid
in the bid field exactly when `max.bid` is null or `size ≤ max.bid`, and
a null bid field when the capacity check fails; symmetrically for the
offer side. -/
theorem claim_C8_capacity_check (m : L1MarketData) (size : Int) :
    ((∀ c, m.max.get_bid = some c → size ≤ c) →
      (m.get_price size).get_bid = m.price.get_bid) ∧
    ((∃ c, m.max.get_bid = some c ∧ ¬ size ≤ c) →
      (m.get_price size).get_bid = none) ∧
    ((∀ c, m.max.get_offer = some c → size ≤ c) →
      (m.get_price size).get_offer = m.price.get_offer) ∧
    ((∃ c, m.max.get_offer = some c ∧ ¬ size ≤ c) →
      (m.get_price size).get_offer = none) := by
  refine ⟨?_, ?_, ?_, ?_⟩
  · intro hall
    unfold L1MarketData.get_price
    cases hmb : m.max.get_bid with
    | none => rfl
    | some c =>
      show (if c ≥ size then m.price.get_bid else none) = m.price.get_bid
      rw [if_pos (hall c hmb)]
  · rintro ⟨c, hc, hgt⟩
    unfold L1MarketData.get_price
    rw [show m.max.get_bid = some c from hc]
    show (if c ≥ size then m.price.get_bid else none) = none
    rw [if_neg hgt]
  · intro hall
    unfold L1MarketData.get_price
    cases hmb : m.max.get_offer with
    | none => rfl
    | some c =>
      show (if c ≥ size then m.price.get_offer else none) = m.price.get_offer
      rw [if_pos (hall c hmb)]
  · rintro ⟨c, hc, hgt⟩
    unfold L1MarketData.get_price
    rw [show m.max.get_offer = some c from hc]
    show (if c ≥ size then m.price.get_offer else none) = none
    rw [if_neg hgt]

/-- C8 witness: the spec's example — price `(10, 20)`,
`max = (bid 10, offer none)`, `get_price(11)` yields `(none, 20)`. -/
theorem claim_C8_witness :
    ((L1MarketData.new_with_max (some 10) (some 20) (some 10) none).get_price 11).get_bid =
      none ∧
    ((L1MarketData.new_with_max (some 10) (some 20) (some 10) none).get_price 11).get_offer =
      some 20 :=
  ⟨(claim_C8_capacity_check (L1MarketData.new_with_max (some 10) (some 20) (some 10) none)
      11).2.1 ⟨10, rfl, by decide⟩,
   (claim_C8_capacity_check (L1MarketData.new_with_max (some 10) (some 20) (some 10) none)
      11).2.2.1 (fun c hc => Option.noConfusion hc)⟩

open L3MarketData in
/-- C9: in every reachable L3 state, no price level with an empty order
map exists on either side; and `remove_price` on a level deletes the
price entry from the ordered map when removing the last order, while it
keeps the level (with the size subtracted) when another order remains. -/
theorem claim_C9_no_empty_levels :
    (∀ m : L3MarketData, Reachable m → NoEmptyLevels m) ∧
    (∀ (store : List (Int × MarketLevel)) (id : Nat) (price : Int)
        (level : MarketLevel) (liquidity : MarketLiquidity), KeysSorted store →
        lookupKey price store = some level →
        lookupKey id level.prices = some liquidity →
        (eraseKey id level.prices = [] →
          lookupKey price (remove_price store id price) = none) ∧
        (eraseKey id level.prices ≠ [] →
          lookupKey price (remove_price store id price) =
            some ⟨level.size - liquidity.size, eraseKey id level.prices⟩)) := by
  constructor
  · intro m h
    exact noEmptyLevels_of_invA (invA_reachable h)
  · intro store id price level liquidity hs hlv hliq
    constructor
    · intro he
      rw [lookupKey_remove_price_self store id price hs hlv hliq, if_pos he]
    · intro he
      rw [lookupKey_remove_price_self store id price hs hlv hliq, if_neg he]

open L3MarketData in
/-- C9 witness: the theorem instantiated at a one-order book and at a
concrete one-order level. -/
theorem claim_C9_witness :
    NoEmptyLevels ((L3MarketData.new.update UpdateAction.Add MarketSide.Bid 7 12 10).1) ∧
    lookupKey 12 (remove_price [(12, ⟨10, [(7, ⟨10⟩)]⟩)] 7 12) = none :=
  ⟨claim_C9_no_empty_levels.1 _ (Reachable.steps _ Reachable.init UpdateAction.Add
      MarketSide.Bid 7 12 10),
   (claim_C9_no_empty_levels.2 [(12, ⟨10, [(7, ⟨10⟩)]⟩)] 7 12 ⟨10, [(7, ⟨10⟩)]⟩ ⟨10⟩
      (by simp [KeysSorted]) rfl rfl).1 rfl⟩

/-- The L3 book after `Add` of id 7 at bid price 12 size 10 followed by a
duplicate `Add` of id 7 at bid price 10 size 4. -/
def c10DupBook : L3MarketData :=
  ((L3MarketData.new.update UpdateAction.Add MarketSide.Bid 7 12 10).1.update
    UpdateAction.Add MarketSide.Bid 7 10 4).1

/-- The duplicate-`Add` book after `Remove` of id 7. -/
def c10AfterRemove : L3MarketData :=
  (c10DupBook.update UpdateAction.Remove MarketSide.Bid 7 0 0).1

/-- C10: after `Add` of id 7 at price 12 and a duplicate `Add` of id 7 at
price 10, the level at 12 still holds id 7 with its old size 10 counted
in the aggregate, while the order index maps 7 only to price 10; the
subsequent `Remove` of 7 succeeds, deletes only the price-10 entry and
empties the index, and the stale size at price 12 keeps answering
`get_price` sweeps (`get_price(5).bid = 12`) until `clear()` wipes it. -/
theorem claim_C10_stale_duplicate_add :
    c10DupBook.bids = [(10, ⟨4, [(7, ⟨4⟩)]⟩), (12, ⟨10, [(7, ⟨10⟩)]⟩)] ∧
    c10DupBook.prices = [(7, ⟨MarketSide.Bid, 10⟩)] ∧
    (c10DupBook.update UpdateAction.Remove MarketSide.Bid 7 0 0).2 = Except.ok () ∧
    c10AfterRemove.bids = [(12, ⟨10, [(7, ⟨10⟩)]⟩)] ∧
    c10AfterRemove.prices = [] ∧
    c10AfterRemove.get_price 5 = some (BidOffer.new_with_price (some 12) none) ∧
    (c10AfterRemove.clear).get_price 5 = some (BidOffer.new_with_price none none) :=
  ⟨rfl, rfl, rfl, rfl, rfl, rfl, rfl⟩

end Pricing
